import Mathlib

/-!
Verification of the tree diff/hydration engine of `git-branchless`
(`git-branchless-lib/src/git/tree.rs`) over a shallow embedding of git tree
objects.

Modelling choices:

* A git object is either a blob (opaque content, represented by a `Nat`) or a
  tree (a list of entries `(name, object, raw file mode)`).  Git OIDs are
  content hashes, injective on object content, so an OID is modelled as the
  object it identifies; OID equality is object equality, and "writing" a tree
  to the object store is just producing its entry list.  All OIDs appearing in
  tree entries are non-zero in git, so the model has no zero OID.
* `eyre::Result` is modelled by `Except String`; `tracing::warn!` diagnostics
  are modelled by returning the list of warned-about edits alongside the
  result.
* Rust `HashMap`s are modelled by association lists together with
  first-occurrence upsert, which is the `HashMap::insert` semantics; hash-map
  iteration order is arbitrary in Rust, so properties that could depend on
  the order in which entries are visited are stated up to membership.
* An entry's object kind (libgit2 `git_tree_entry_type`) is computed from its
  file mode: the kind is `Tree` exactly when `attr & 0o170000 == 0o040000`.
-/

inductive Obj where
  | blob : Nat → Obj
  | tree : List (String × Obj × Nat) → Obj

/-- The entry list of one tree object: name, pointed-to object, raw file mode. -/
abbrev Entries := List (String × Obj × Nat)

/-- A relative path, as a list of name segments. -/
abbrev Rpath := List String

mutual

def Obj.decEq : (a b : Obj) → Decidable (a = b)
  | .blob x, .blob y =>
    @decidable_of_iff _ _ (by simp) (Nat.decEq x y)
  | .blob _, .tree _ => isFalse (by intro h; exact Obj.noConfusion h)
  | .tree _, .blob _ => isFalse (by intro h; exact Obj.noConfusion h)
  | .tree xs, .tree ys =>
    @decidable_of_iff _ _ (by simp) (decEqEntries xs ys)

def decEqEntries : (xs ys : Entries) → Decidable (xs = ys)
  | [], [] => isTrue rfl
  | [], _ :: _ => isFalse (by simp)
  | _ :: _, [] => isFalse (by simp)
  | (n, o, m) :: xs, (n2, o2, m2) :: ys =>
    @decidable_of_iff _ _ (by simp [and_assoc])
      (@instDecidableAnd _ _ (String.decEq n n2)
        (@instDecidableAnd _ _ (Obj.decEq o o2)
          (@instDecidableAnd _ _ (Nat.decEq m m2) (decEqEntries xs ys))))

end

instance : DecidableEq Obj := Obj.decEq

/-- Raw file mode of a tree entry (`git2::FileMode::Tree`), octal `040000`. -/
def treeMode : Nat := 16384

/-- Whether an entry with the given raw file mode has object kind tree
(libgit2 `git_tree_entry_type`: `S_ISDIR(attr)` and not a gitlink, that is
`attr &&& 0o170000 == 0o040000`). -/
def entryKindIsTree (mode : Nat) : Bool := mode &&& 61440 == 16384

/-- Look an entry up by name in one tree level (hash-map lookup in the Rust
code). -/
def lookupName (es : Entries) (n : String) : Option (Obj × Nat) :=
  match es.find? (fun e => e.1 == n) with
  | some e => some e.2
  | none => none

/-- Entry lookup where the whole tree may be absent (an absent tree behaves as
the empty tree, `unwrap_or_default` in the Rust code). -/
def optLookup (t : Option Entries) (n : String) : Option (Obj × Nat) :=
  match t with
  | some es => lookupName es n
  | none => none

def namesOf (t : Option Entries) : List String :=
  (t.getD []).map (fun e => e.1)

/-- The union of the entry names of both sides (`all_entry_names` in the Rust
code, a `HashSet`; modelled as left names then right names not on the left). -/
def unionNames (lhs rhs : Option Entries) : List String :=
  namesOf lhs ++ (namesOf rhs).filter (fun n => !(namesOf lhs).contains n)

/-- The per-side classification of one entry name, from
`get_changed_paths_between_trees_internal`. -/
inductive ClassifiedEntry where
  | absent
  | notATree (oid : Obj) (mode : Nat)
  | tree (oid : Obj) (mode : Nat)

/-- `classify_entry`: absent, or tree/non-tree by the entry's object kind. -/
def classifyEntry : Option (Obj × Nat) → ClassifiedEntry
  | none => .absent
  | some (o, m) => if entryKindIsTree m then .tree o m else .notATree o m

theorem classify_tree_size {t : Option Entries} {n : String} {o : Obj} {m : Nat}
    (h : classifyEntry (optLookup t n) = ClassifiedEntry.tree o m) :
    sizeOf o + 3 ≤ sizeOf t := by
  match t with
  | none => simp [optLookup, classifyEntry] at h
  | some es =>
    simp only [optLookup, lookupName] at h
    match hf : es.find? (fun e => e.1 == n) with
    | none => rw [hf] at h; simp [classifyEntry] at h
    | some e =>
      rw [hf] at h
      have hmem := List.mem_of_find?_eq_some hf
      have hsz := List.sizeOf_lt_of_mem hmem
      obtain ⟨n2, o2, m2⟩ := e
      simp only [classifyEntry] at h
      split at h
      · cases h
        simp only [Prod.mk.sizeOf_spec] at hsz
        simp only [Option.some.sizeOf_spec]
        omega
      · cases h

theorem optEntries_size_pos (t : Option Entries) : 1 ≤ sizeOf t := by
  cases t <;> simp

/-- `get_tree`: resolve an OID that was claimed to be a tree; failure to
resolve it as a tree object is a fatal consistency error. -/
def getTreeEntries : Obj → Except String Entries
  | .tree es => .ok es
  | .blob _ => .error "tree entry could not be looked up as a tree"

theorem getTreeEntries_size {o : Obj} {es : Entries}
    (h : getTreeEntries o = .ok es) : sizeOf es + 1 = sizeOf o := by
  match o with
  | .blob _ => simp [getTreeEntries] at h
  | .tree l =>
    simp only [getTreeEntries, Except.ok.injEq] at h
    subst h
    simp only [Obj.tree.sizeOf_spec]
    omega

/-- Shallow embedding of `get_changed_paths_between_trees_internal`
(tree.rs lines 76-267).  Instead of threading an accumulator and a
current-path prefix, each level returns the changed paths relative to that
level and the caller prefixes the entry name; the set of produced full paths
is the same.  The level's entry names are processed as the explicit list
`names` (called with the name union, whose hash-set iteration order in Rust
is arbitrary; order-sensitive claims are stated up to membership). -/
def diffNames (lhs rhs : Option Entries) (names : List String) :
    Except String (List Rpath) :=
  match names with
  | [] => .ok []
  | n :: rest =>
    let hd : Except String (List Rpath) :=
      match h1 : classifyEntry (optLookup lhs n), h2 : classifyEntry (optLookup rhs n) with
      | .absent, .absent => .ok []
      | .notATree o1 m1, .notATree o2 m2 =>
        if o1 = o2 ∧ m1 = m2 then .ok [] else .ok [[n]]
      | .absent, .notATree _ _ => .ok [[n]]
      | .notATree _ _, .absent => .ok [[n]]
      | .absent, .tree o _ =>
        match hg : getTreeEntries o with
        | .error e => .error e
        | .ok sub =>
          match diffNames (some sub) none (unionNames (some sub) none) with
          | .error e => .error e
          | .ok ps => .ok (ps.map (fun p => n :: p))
      | .tree o _, .absent =>
        match hg : getTreeEntries o with
        | .error e => .error e
        | .ok sub =>
          match diffNames (some sub) none (unionNames (some sub) none) with
          | .error e => .error e
          | .ok ps => .ok (ps.map (fun p => n :: p))
      | .notATree _ _, .tree o _ =>
        match hg : getTreeEntries o with
        | .error e => .error e
        | .ok sub =>
          match diffNames (some sub) none (unionNames (some sub) none) with
          | .error e => .error e
          | .ok ps => .ok (ps.map (fun p => n :: p) ++ [[n]])
      | .tree o _, .notATree _ _ =>
        match hg : getTreeEntries o with
        | .error e => .error e
        | .ok sub =>
          match diffNames (some sub) none (unionNames (some sub) none) with
          | .error e => .error e
          | .ok ps => .ok (ps.map (fun p => n :: p) ++ [[n]])
      | .tree o1 m1, .tree o2 m2 =>
        if o1 = o2 then
          if m1 = m2 then .ok []
          else .ok [[n]]
        else
          match hg1 : getTreeEntries o1, hg2 : getTreeEntries o2 with
          | .error e, _ => .error e
          | .ok _, .error e => .error e
          | .ok sub1, .ok sub2 =>
            match diffNames (some sub1) (some sub2) (unionNames (some sub1) (some sub2)) with
            | .error e => .error e
            | .ok ps =>
              if m1 = m2 then .ok (ps.map (fun p => n :: p))
              else .ok (ps.map (fun p => n :: p) ++ [[n]])
    match hd with
    | .error e => .error e
    | .ok hdl =>
      match diffNames lhs rhs rest with
      | .error e => .error e
      | .ok restl => .ok (hdl ++ restl)
termination_by (sizeOf lhs + sizeOf rhs, names.length)
decreasing_by
  all_goals first
  | (apply Prod.Lex.right; simp only [List.length_cons]; omega)
  | (apply Prod.Lex.left
     try have A1 := classify_tree_size h1
     try have A2 := classify_tree_size h2
     try have B1 := getTreeEntries_size hg
     try have B2 := getTreeEntries_size hg1
     try have B3 := getTreeEntries_size hg2
     have C1 := optEntries_size_pos lhs
     have C2 := optEntries_size_pos rhs
     simp only [Option.some.sizeOf_spec, Option.none.sizeOf_spec]
     omega)

/-- One directory level of the diff. -/
def diffTrees (lhs rhs : Option Entries) : Except String (List Rpath) :=
  diffNames lhs rhs (unionNames lhs rhs)

/-- Shallow embedding of `get_changed_paths_between_trees` (tree.rs lines
269-279): run the recursive diff from the root with an empty current path.
The Rust function collects the accumulated paths into a `HashSet`; the model
returns the accumulated list, and set-level claims are stated up to
membership. -/
def get_changed_paths_between_trees (lhs rhs : Option Entries) :
    Except String (List Rpath) :=
  diffTrees lhs rhs

/-- The processing of one entry name by
`get_changed_paths_between_trees_internal` (tree.rs lines 156-263), written
out of line: the per-name step performed before moving on to the level's
remaining names.  Recursive comparisons go through `diffTrees`. -/
def diffOne (lhs rhs : Option Entries) (n : String) : Except String (List Rpath) :=
  match classifyEntry (optLookup lhs n), classifyEntry (optLookup rhs n) with
  | .absent, .absent => .ok []
  | .notATree o1 m1, .notATree o2 m2 =>
    if o1 = o2 ∧ m1 = m2 then .ok [] else .ok [[n]]
  | .absent, .notATree _ _ => .ok [[n]]
  | .notATree _ _, .absent => .ok [[n]]
  | .absent, .tree o _ =>
    match getTreeEntries o with
    | .error e => .error e
    | .ok sub =>
      match diffTrees (some sub) none with
      | .error e => .error e
      | .ok ps => .ok (ps.map (fun p => n :: p))
  | .tree o _, .absent =>
    match getTreeEntries o with
    | .error e => .error e
    | .ok sub =>
      match diffTrees (some sub) none with
      | .error e => .error e
      | .ok ps => .ok (ps.map (fun p => n :: p))
  | .notATree _ _, .tree o _ =>
    match getTreeEntries o with
    | .error e => .error e
    | .ok sub =>
      match diffTrees (some sub) none with
      | .error e => .error e
      | .ok ps => .ok (ps.map (fun p => n :: p) ++ [[n]])
  | .tree o _, .notATree _ _ =>
    match getTreeEntries o with
    | .error e => .error e
    | .ok sub =>
      match diffTrees (some sub) none with
      | .error e => .error e
      | .ok ps => .ok (ps.map (fun p => n :: p) ++ [[n]])
  | .tree o1 m1, .tree o2 m2 =>
    if o1 = o2 then
      if m1 = m2 then .ok []
      else .ok [[n]]
    else
      match getTreeEntries o1, getTreeEntries o2 with
      | .error e, _ => .error e
      | .ok _, .error e => .error e
      | .ok sub1, .ok sub2 =>
        match diffTrees (some sub1) (some sub2) with
        | .error e => .error e
        | .ok ps =>
          if m1 = m2 then .ok (ps.map (fun p => n :: p))
          else .ok (ps.map (fun p => n :: p) ++ [[n]])

theorem diffNames_nil (lhs rhs : Option Entries) : diffNames lhs rhs [] = .ok [] := by
  rw [diffNames]

theorem diffNames_cons (lhs rhs : Option Entries) (n : String) (rest : List String) :
    diffNames lhs rhs (n :: rest) =
      match diffOne lhs rhs n with
      | .error e => .error e
      | .ok hdl =>
        match diffNames lhs rhs rest with
        | .error e => .error e
        | .ok restl => .ok (hdl ++ restl) := by
  conv_lhs => rw [diffNames]
  unfold diffOne diffTrees
  cases hc1 : classifyEntry (optLookup lhs n) with
  | absent =>
    cases hc2 : classifyEntry (optLookup rhs n) with
    | absent => rfl
    | notATree o m => rfl
    | tree o m => cases o <;> rfl
  | notATree o1 m1 =>
    cases hc2 : classifyEntry (optLookup rhs n) with
    | absent => rfl
    | notATree o2 m2 => rfl
    | tree o2 m2 => cases o2 <;> rfl
  | tree o1 m1 =>
    cases hc2 : classifyEntry (optLookup rhs n) with
    | absent => cases o1 <;> rfl
    | notATree o2 m2 => cases o1 <;> rfl
    | tree o2 m2 => cases o1 <;> cases o2 <;> rfl

/-- Path lookup through nested trees, one segment at a time
(`Tree::get_path` / libgit2 `git_tree_entry_bypath`): a non-final segment must
name an entry of tree kind, which is then resolved as a tree and descended
into; otherwise the path is not found. -/
def lookupPath (es : Entries) : Rpath → Option (Obj × Nat)
  | [] => none
  | n :: rest =>
    match lookupName es n with
    | none => none
    | some (o, m) =>
      if rest.isEmpty then some (o, m)
      else if entryKindIsTree m then
        match o with
        | .tree sub => lookupPath sub rest
        | .blob _ => none
      else none

/-- Path lookup against an optional tree (an absent tree resolves nothing). -/
def lookupPathOpt (t : Option Entries) (p : Rpath) : Option (Obj × Nat) :=
  match t with
  | some es => lookupPath es p
  | none => none

/-- Whether the diff records a path, as a function of the two classifications
of the entry found at that path on each side: paths with a non-tree entry on
at least one side are recorded exactly when the `(OID, mode)` pairs differ or
the entry exists on only one side, while a path that is tree-typed on both
sides is recorded exactly when the two raw modes differ, and a tree-typed
entry compared against an absent one is never recorded itself. -/
def changedAt : ClassifiedEntry → ClassifiedEntry → Bool
  | .absent, .absent => false
  | .notATree o1 m1, .notATree o2 m2 => !(decide (o1 = o2) && decide (m1 = m2))
  | .absent, .notATree _ _ => true
  | .notATree _ _, .absent => true
  | .absent, .tree _ _ => false
  | .tree _ _, .absent => false
  | .notATree _ _, .tree _ _ => true
  | .tree _ _, .notATree _ _ => true
  | .tree _ m1, .tree _ m2 => !(decide (m1 = m2))

mutual

/-- Store well-formedness of an object: inside a tree, entry names are unique
and every tree-kind entry resolves to a (recursively well-formed) tree
object.  Trees materialized from a real git object store satisfy this. -/
def wfObj : Obj → Bool
  | .blob _ => true
  | .tree es => wfEntries es

def wfEntries : Entries → Bool
  | [] => true
  | (n, o, m) :: rest =>
    !(rest.any (fun e => e.1 == n)) &&
    (if entryKindIsTree m then
       match o with
       | .tree _ => wfObj o
       | .blob _ => false
     else true) &&
    wfEntries rest

end

/-- Well-formedness of an optional tree. -/
def wfOpt : Option Entries → Bool
  | none => true
  | some es => wfEntries es

theorem changedAt_comm (c1 c2 : ClassifiedEntry) : changedAt c1 c2 = changedAt c2 c1 := by
  cases c1 <;> cases c2 <;> simp only [changedAt] <;> congr 1 <;>
    simp [decide_eq_decide, eq_comm]

theorem changedAt_self (c : ClassifiedEntry) : changedAt c c = false := by
  cases c <;> simp [changedAt]

theorem classify_absent {x : Option (Obj × Nat)}
    (h : classifyEntry x = ClassifiedEntry.absent) : x = none := by
  match x with
  | none => rfl
  | some (o, m) =>
    simp only [classifyEntry] at h
    split at h <;> cases h

theorem classify_notATree {x : Option (Obj × Nat)} {o : Obj} {m : Nat}
    (h : classifyEntry x = ClassifiedEntry.notATree o m) :
    x = some (o, m) ∧ entryKindIsTree m = false := by
  match x with
  | none => cases h
  | some (o2, m2) =>
    simp only [classifyEntry] at h
    split at h
    · cases h
    · cases h
      rename_i hk
      simp_all

theorem classify_tree {x : Option (Obj × Nat)} {o : Obj} {m : Nat}
    (h : classifyEntry x = ClassifiedEntry.tree o m) :
    x = some (o, m) ∧ entryKindIsTree m = true := by
  match x with
  | none => cases h
  | some (o2, m2) =>
    simp only [classifyEntry] at h
    split at h
    · cases h
      rename_i hk
      simp_all
    · cases h

theorem wfEntries_mem {es : Entries} {n : String} {o : Obj} {m : Nat}
    (hwf : wfEntries es = true) (hmem : (n, o, m) ∈ es) (hk : entryKindIsTree m = true) :
    ∃ sub, o = Obj.tree sub ∧ wfEntries sub = true := by
  induction es with
  | nil => cases hmem
  | cons e rest ih =>
    obtain ⟨n2, o2, m2⟩ := e
    rw [wfEntries.eq_def] at hwf
    simp only [Bool.and_eq_true] at hwf
    rcases List.mem_cons.mp hmem with h1 | h2
    · cases h1
      have := hwf.1.2
      rw [hk] at this
      simp only [if_true] at this
      match o, this with
      | .tree sub, hw => exact ⟨sub, rfl, by rwa [wfObj] at hw⟩
    · exact ih hwf.2 h2

theorem wfEntries_tail {e : String × Obj × Nat} {rest : Entries}
    (hwf : wfEntries (e :: rest) = true) : wfEntries rest = true := by
  obtain ⟨n, o, m⟩ := e
  rw [wfEntries.eq_def] at hwf
  simp only [Bool.and_eq_true] at hwf
  exact hwf.2

theorem lookupName_mem {es : Entries} {n : String} {o : Obj} {m : Nat}
    (h : lookupName es n = some (o, m)) : (n, o, m) ∈ es := by
  rw [lookupName] at h
  match hf : es.find? (fun e => e.1 == n) with
  | none => rw [hf] at h; cases h
  | some e =>
    rw [hf] at h
    have hmem := List.mem_of_find?_eq_some hf
    have hp := List.find?_some hf
    obtain ⟨n2, o2, m2⟩ := e
    cases h
    simp only [beq_iff_eq] at hp
    subst hp
    exact hmem

theorem wf_lookup_tree {es : Entries} {n : String} {o : Obj} {m : Nat}
    (hwf : wfEntries es = true) (h : lookupName es n = some (o, m))
    (hk : entryKindIsTree m = true) :
    ∃ sub, o = Obj.tree sub ∧ wfEntries sub = true :=
  wfEntries_mem hwf (lookupName_mem h) hk

theorem lookupName_none_of_not_mem {es : Entries} {n : String}
    (h : n ∉ es.map (fun e => e.1)) : lookupName es n = none := by
  rw [lookupName]
  match hf : es.find? (fun e => e.1 == n) with
  | none => rw [hf]
  | some e =>
    exfalso
    have hmem := List.mem_of_find?_eq_some hf
    have hp := List.find?_some hf
    simp only [beq_iff_eq] at hp
    exact h (hp ▸ List.mem_map_of_mem (fun e => e.1) hmem)

theorem optLookup_none_of_not_union {lhs rhs : Option Entries} {n : String}
    (h : n ∉ unionNames lhs rhs) :
    optLookup lhs n = none ∧ optLookup rhs n = none := by
  rw [unionNames] at h
  simp only [List.mem_append, List.mem_filter, not_or] at h
  obtain ⟨h1, h2⟩ := h
  refine ⟨?_, ?_⟩
  · match lhs, h1 with
    | none, _ => rfl
    | some es, h1 => exact lookupName_none_of_not_mem (by simpa [namesOf] using h1)
  · match rhs, h2 with
    | none, _ => rfl
    | some es, h2 =>
      apply lookupName_none_of_not_mem
      intro hmem
      by_cases hin : n ∈ namesOf lhs
      · exact h1 hin
      · exact h2 ⟨by simpa [namesOf] using hmem, by simp [hin]⟩

theorem lookupPath_cons_none {es : Entries} {n : String} (q : Rpath)
    (h : lookupName es n = none) : lookupPath es (n :: q) = none := by
  rw [lookupPath, h]

theorem lookupPath_single {es : Entries} {n : String} :
    lookupPath es [n] = lookupName es n := by
  rw [lookupPath]
  match lookupName es n with
  | none => rfl
  | some (o, m) => simp

theorem lookupPath_cons_deep {es : Entries} {n : String} {o : Obj} {m : Nat} {q : Rpath}
    (hq : q ≠ []) (h : lookupName es n = some (o, m)) :
    lookupPath es (n :: q) =
      if entryKindIsTree m then
        match o with
        | .tree sub => lookupPath sub q
        | .blob _ => none
      else none := by
  rw [lookupPath, h]
  have : q.isEmpty = false := by
    cases q
    · exact absurd rfl hq
    · rfl
  rw [this]
  simp

theorem lookupPathOpt_nil (t : Option Entries) : lookupPathOpt t [] = none := by
  cases t <;> rfl

theorem lookupPathOpt_cons_none {t : Option Entries} {n : String} (q : Rpath)
    (h : optLookup t n = none) : lookupPathOpt t (n :: q) = none := by
  match t with
  | none => rfl
  | some es => exact lookupPath_cons_none q h

theorem lookupPathOpt_single {t : Option Entries} {n : String} {v : Obj × Nat}
    (h : optLookup t n = some v) : lookupPathOpt t [n] = some v := by
  match t with
  | none => cases h
  | some es => rw [lookupPathOpt, lookupPath_single]; exact h

theorem side_absent {t : Option Entries} {n : String}
    (h : classifyEntry (optLookup t n) = ClassifiedEntry.absent) (q : Rpath) :
    classifyEntry (lookupPathOpt t (n :: q)) = ClassifiedEntry.absent := by
  rw [lookupPathOpt_cons_none q (classify_absent h)]
  rfl

theorem side_file_nil {t : Option Entries} {n : String} {o : Obj} {m : Nat}
    (h : classifyEntry (optLookup t n) = ClassifiedEntry.notATree o m) :
    classifyEntry (lookupPathOpt t [n]) = ClassifiedEntry.notATree o m := by
  obtain ⟨he, hk⟩ := classify_notATree h
  rw [lookupPathOpt_single he]
  simp [classifyEntry, hk]

theorem side_file_deep {t : Option Entries} {n : String} {o : Obj} {m : Nat} {q : Rpath}
    (hq : q ≠ []) (h : classifyEntry (optLookup t n) = ClassifiedEntry.notATree o m) :
    classifyEntry (lookupPathOpt t (n :: q)) = ClassifiedEntry.absent := by
  obtain ⟨he, hk⟩ := classify_notATree h
  match t, he with
  | some es, he =>
    rw [lookupPathOpt, lookupPath_cons_deep hq he, hk]
    rfl

theorem side_tree_nil {t : Option Entries} {n : String} {o : Obj} {m : Nat}
    (h : classifyEntry (optLookup t n) = ClassifiedEntry.tree o m) :
    classifyEntry (lookupPathOpt t [n]) = ClassifiedEntry.tree o m := by
  obtain ⟨he, hk⟩ := classify_tree h
  rw [lookupPathOpt_single he]
  simp [classifyEntry, hk]

theorem side_tree_deep {t : Option Entries} {n : String} {o : Obj} {m : Nat}
    {sub : Entries} {q : Rpath} (hq : q ≠ [])
    (h : classifyEntry (optLookup t n) = ClassifiedEntry.tree o m)
    (ho : o = Obj.tree sub) :
    classifyEntry (lookupPathOpt t (n :: q)) = classifyEntry (lookupPathOpt (some sub) q) := by
  obtain ⟨he, hk⟩ := classify_tree h
  match t, he with
  | some es, he =>
    rw [lookupPathOpt, lookupPath_cons_deep hq he, hk]
    subst ho
    rfl

theorem side_tree_wf {t : Option Entries} {n : String} {o : Obj} {m : Nat}
    (hw : wfOpt t = true) (h : classifyEntry (optLookup t n) = ClassifiedEntry.tree o m) :
    ∃ sub, o = Obj.tree sub ∧ wfEntries sub = true := by
  obtain ⟨he, hk⟩ := classify_tree h
  match t, he with
  | some es, he => exact wf_lookup_tree hw he hk

/-- Membership characterization of the diff of two well-formed optional
trees: it succeeds, and the produced set contains exactly the paths at which
`changedAt` holds for the two sides' entry classifications. -/
def DiffChar (lhs rhs : Option Entries) : Prop :=
  ∃ ps, diffTrees lhs rhs = Except.ok ps ∧
    ∀ p, p ∈ ps ↔
      changedAt (classifyEntry (lookupPathOpt lhs p))
        (classifyEntry (lookupPathOpt rhs p)) = true

theorem diffOne_char (lhs rhs : Option Entries) (n : String)
    (hw1 : wfOpt lhs = true) (hw2 : wfOpt rhs = true)
    (IH : ∀ l r : Option Entries, sizeOf l + sizeOf r < sizeOf lhs + sizeOf rhs →
      wfOpt l = true → wfOpt r = true → DiffChar l r) :
    ∃ l, diffOne lhs rhs n = .ok l ∧
      ∀ p, p ∈ l ↔ ∃ q, p = n :: q ∧
        changedAt (classifyEntry (lookupPathOpt lhs (n :: q)))
          (classifyEntry (lookupPathOpt rhs (n :: q))) = true := by
  unfold diffOne
  cases hc1 : classifyEntry (optLookup lhs n) with
  | absent =>
    cases hc2 : classifyEntry (optLookup rhs n) with
    | absent =>
      refine ⟨[], rfl, fun p => ?_⟩
      simp only [List.not_mem_nil, false_iff]
      rintro ⟨q, rfl, hch⟩
      rw [side_absent hc1 q, side_absent hc2 q] at hch
      simp [changedAt] at hch
    | notATree o2 m2 =>
      refine ⟨[[n]], rfl, fun p => ?_⟩
      constructor
      · intro hp
        rw [List.mem_singleton] at hp
        subst hp
        refine ⟨[], rfl, ?_⟩
        rw [side_absent hc1 [], side_file_nil hc2]
        rfl
      · rintro ⟨q, rfl, hch⟩
        match q with
        | [] => simp
        | x :: xs =>
          rw [side_absent hc1 _, side_file_deep (List.cons_ne_nil x xs) hc2] at hch
          simp [changedAt] at hch
    | tree o2 m2 =>
      obtain ⟨sub, rfl, hwsub⟩ := side_tree_wf hw2 hc2
      have hsz := classify_tree_size hc2
      have hsz1 := optEntries_size_pos lhs
      obtain ⟨psub, hpsub, hsubmem⟩ :=
        IH (some sub) none
          (by
            simp only [Obj.tree.sizeOf_spec] at hsz
            simp only [Option.some.sizeOf_spec, Option.none.sizeOf_spec]
            omega)
          hwsub rfl
      have hnilsub : [] ∉ psub := by
        intro hmem
        have := (hsubmem []).mp hmem
        rw [lookupPathOpt_nil, lookupPathOpt_nil] at this
        simp [classifyEntry, changedAt] at this
      simp only [getTreeEntries, hpsub]
      refine ⟨psub.map (fun p => n :: p), rfl, fun p => ?_⟩
      constructor
      · intro hp
        obtain ⟨q, hqmem, hq⟩ := List.mem_map.mp hp
        subst hq
        refine ⟨q, rfl, ?_⟩
        have hqne : q ≠ [] := by rintro rfl; exact hnilsub hqmem
        rw [side_absent hc1 q, side_tree_deep hqne hc2 rfl, changedAt_comm]
        have := (hsubmem q).mp hqmem
        rwa [show lookupPathOpt none q = none from rfl] at this
      · rintro ⟨q, rfl, hch⟩
        match q with
        | [] =>
          rw [side_absent hc1 [], side_tree_nil hc2] at hch
          simp [changedAt] at hch
        | x :: xs =>
          rw [side_absent hc1 _, side_tree_deep (List.cons_ne_nil x xs) hc2 rfl] at hch
          refine List.mem_map_of_mem _ ((hsubmem _).mpr ?_)
          rw [show lookupPathOpt none (x :: xs) = none from rfl]
          rw [changedAt_comm] at hch
          exact hch
  | notATree o1 m1 =>
    cases hc2 : classifyEntry (optLookup rhs n) with
    | absent =>
      refine ⟨[[n]], rfl, fun p => ?_⟩
      constructor
      · intro hp
        rw [List.mem_singleton] at hp
        subst hp
        refine ⟨[], rfl, ?_⟩
        rw [side_absent hc2 [], side_file_nil hc1]
        rfl
      · rintro ⟨q, rfl, hch⟩
        match q with
        | [] => simp
        | x :: xs =>
          rw [side_absent hc2 _, side_file_deep (List.cons_ne_nil x xs) hc1] at hch
          simp [changedAt] at hch
    | notATree o2 m2 =>
      simp only []
      by_cases heq : o1 = o2 ∧ m1 = m2
      · rw [if_pos heq]
        refine ⟨[], rfl, fun p => ?_⟩
        simp only [List.not_mem_nil, false_iff]
        rintro ⟨q, rfl, hch⟩
        match q with
        | [] =>
          rw [side_file_nil hc1, side_file_nil hc2] at hch
          simp [changedAt, heq.1, heq.2] at hch
        | x :: xs =>
          rw [side_file_deep (List.cons_ne_nil x xs) hc1,
            side_file_deep (List.cons_ne_nil x xs) hc2] at hch
          simp [changedAt] at hch
      · rw [if_neg heq]
        refine ⟨[[n]], rfl, fun p => ?_⟩
        constructor
        · intro hp
          rw [List.mem_singleton] at hp
          subst hp
          refine ⟨[], rfl, ?_⟩
          rw [side_file_nil hc1, side_file_nil hc2]
          have hne : ¬(o1 = o2) ∨ ¬(m1 = m2) := by tauto
          rcases hne with h | h <;> simp [changedAt, h]
        · rintro ⟨q, rfl, hch⟩
          match q with
          | [] => simp
          | x :: xs =>
            rw [side_file_deep (List.cons_ne_nil x xs) hc1,
              side_file_deep (List.cons_ne_nil x xs) hc2] at hch
            simp [changedAt] at hch
    | tree o2 m2 =>
      obtain ⟨sub, rfl, hwsub⟩ := side_tree_wf hw2 hc2
      have hsz := classify_tree_size hc2
      have hsz1 := optEntries_size_pos lhs
      obtain ⟨psub, hpsub, hsubmem⟩ :=
        IH (some sub) none
          (by
            simp only [Obj.tree.sizeOf_spec] at hsz
            simp only [Option.some.sizeOf_spec, Option.none.sizeOf_spec]
            omega)
          hwsub rfl
      have hnilsub : [] ∉ psub := by
        intro hmem
        have := (hsubmem []).mp hmem
        rw [lookupPathOpt_nil, lookupPathOpt_nil] at this
        simp [classifyEntry, changedAt] at this
      simp only [getTreeEntries, hpsub]
      refine ⟨psub.map (fun p => n :: p) ++ [[n]], rfl, fun p => ?_⟩
      rw [List.mem_append, List.mem_singleton, List.mem_map]
      constructor
      · rintro (⟨q, hqmem, hq⟩ | rfl)
        · subst hq
          refine ⟨q, rfl, ?_⟩
          have hqne : q ≠ [] := by rintro rfl; exact hnilsub hqmem
          rw [side_file_deep hqne hc1, side_tree_deep hqne hc2 rfl, changedAt_comm]
          have := (hsubmem q).mp hqmem
          rwa [show lookupPathOpt none q = none from rfl] at this
        · refine ⟨[], rfl, ?_⟩
          rw [side_file_nil hc1, side_tree_nil hc2]
          rfl
      · rintro ⟨q, rfl, hch⟩
        match q with
        | [] => simp
        | x :: xs =>
          left
          rw [side_file_deep (List.cons_ne_nil x xs) hc1,
            side_tree_deep (List.cons_ne_nil x xs) hc2 rfl] at hch
          refine ⟨x :: xs, (hsubmem _).mpr ?_, rfl⟩
          rw [show lookupPathOpt none (x :: xs) = none from rfl]
          rw [changedAt_comm] at hch
          exact hch
  | tree o1 m1 =>
    obtain ⟨sub1, rfl, hwsub1⟩ := side_tree_wf hw1 hc1
    have hsza := classify_tree_size hc1
    cases hc2 : classifyEntry (optLookup rhs n) with
    | absent =>
      have hsz2 := optEntries_size_pos rhs
      obtain ⟨psub, hpsub, hsubmem⟩ :=
        IH (some sub1) none
          (by
            simp only [Obj.tree.sizeOf_spec] at hsza
            simp only [Option.some.sizeOf_spec, Option.none.sizeOf_spec]
            omega)
          hwsub1 rfl
      have hnilsub : [] ∉ psub := by
        intro hmem
        have := (hsubmem []).mp hmem
        rw [lookupPathOpt_nil, lookupPathOpt_nil] at this
        simp [classifyEntry, changedAt] at this
      simp only [getTreeEntries, hpsub]
      refine ⟨psub.map (fun p => n :: p), rfl, fun p => ?_⟩
      constructor
      · intro hp
        obtain ⟨q, hqmem, hq⟩ := List.mem_map.mp hp
        subst hq
        refine ⟨q, rfl, ?_⟩
        have hqne : q ≠ [] := by rintro rfl; exact hnilsub hqmem
        rw [side_absent hc2 q, side_tree_deep hqne hc1 rfl]
        have := (hsubmem q).mp hqmem
        rwa [show lookupPathOpt none q = none from rfl] at this
      · rintro ⟨q, rfl, hch⟩
        match q with
        | [] =>
          rw [side_absent hc2 [], side_tree_nil hc1] at hch
          simp [changedAt] at hch
        | x :: xs =>
          rw [side_absent hc2 _, side_tree_deep (List.cons_ne_nil x xs) hc1 rfl] at hch
          refine List.mem_map_of_mem _ ((hsubmem _).mpr ?_)
          rw [show lookupPathOpt none (x :: xs) = none from rfl]
          exact hch
    | notATree o2 m2 =>
      have hsz2 := optEntries_size_pos rhs
      obtain ⟨psub, hpsub, hsubmem⟩ :=
        IH (some sub1) none
          (by
            simp only [Obj.tree.sizeOf_spec] at hsza
            simp only [Option.some.sizeOf_spec, Option.none.sizeOf_spec]
            omega)
          hwsub1 rfl
      have hnilsub : [] ∉ psub := by
        intro hmem
        have := (hsubmem []).mp hmem
        rw [lookupPathOpt_nil, lookupPathOpt_nil] at this
        simp [classifyEntry, changedAt] at this
      simp only [getTreeEntries, hpsub]
      refine ⟨psub.map (fun p => n :: p) ++ [[n]], rfl, fun p => ?_⟩
      rw [List.mem_append, List.mem_singleton, List.mem_map]
      constructor
      · rintro (⟨q, hqmem, hq⟩ | rfl)
        · subst hq
          refine ⟨q, rfl, ?_⟩
          have hqne : q ≠ [] := by rintro rfl; exact hnilsub hqmem
          rw [side_file_deep hqne hc2, side_tree_deep hqne hc1 rfl]
          have := (hsubmem q).mp hqmem
          rwa [show lookupPathOpt none q = none from rfl] at this
        · refine ⟨[], rfl, ?_⟩
          rw [side_file_nil hc2, side_tree_nil hc1]
          rfl
      · rintro ⟨q, rfl, hch⟩
        match q with
        | [] => simp
        | x :: xs =>
          left
          rw [side_file_deep (List.cons_ne_nil x xs) hc2,
            side_tree_deep (List.cons_ne_nil x xs) hc1 rfl] at hch
          refine ⟨x :: xs, (hsubmem _).mpr ?_, rfl⟩
          rw [show lookupPathOpt none (x :: xs) = none from rfl]
          exact hch
    | tree o2 m2 =>
      obtain ⟨sub2, rfl, hwsub2⟩ := side_tree_wf hw2 hc2
      have hszb := classify_tree_size hc2
      simp only []
      by_cases ho : Obj.tree sub1 = Obj.tree sub2
      · rw [if_pos ho]
        have hsubeq : sub1 = sub2 := by injection ho
        subst hsubeq
        by_cases hm : m1 = m2
        · rw [if_pos hm]
          refine ⟨[], rfl, fun p => ?_⟩
          simp only [List.not_mem_nil, false_iff]
          rintro ⟨q, rfl, hch⟩
          match q with
          | [] =>
            rw [side_tree_nil hc1, side_tree_nil hc2] at hch
            simp [changedAt, hm] at hch
          | x :: xs =>
            rw [side_tree_deep (List.cons_ne_nil x xs) hc1 rfl,
              side_tree_deep (List.cons_ne_nil x xs) hc2 rfl] at hch
            rw [changedAt_self] at hch
            cases hch
        · rw [if_neg hm]
          refine ⟨[[n]], rfl, fun p => ?_⟩
          constructor
          · intro hp
            rw [List.mem_singleton] at hp
            subst hp
            refine ⟨[], rfl, ?_⟩
            rw [side_tree_nil hc1, side_tree_nil hc2]
            simp [changedAt, hm]
          · rintro ⟨q, rfl, hch⟩
            match q with
            | [] => simp
            | x :: xs =>
              rw [side_tree_deep (List.cons_ne_nil x xs) hc1 rfl,
                side_tree_deep (List.cons_ne_nil x xs) hc2 rfl] at hch
              rw [changedAt_self] at hch
              cases hch
      · rw [if_neg ho]
        obtain ⟨psub, hpsub, hsubmem⟩ :=
          IH (some sub1) (some sub2)
            (by
              simp only [Obj.tree.sizeOf_spec] at hsza hszb
              simp only [Option.some.sizeOf_spec]
              omega)
            hwsub1 hwsub2
        have hnilsub : [] ∉ psub := by
          intro hmem
          have := (hsubmem []).mp hmem
          rw [lookupPathOpt_nil, lookupPathOpt_nil] at this
          simp [classifyEntry, changedAt] at this
        simp only [getTreeEntries, hpsub]
        by_cases hm : m1 = m2
        · rw [if_pos hm]
          refine ⟨psub.map (fun p => n :: p), rfl, fun p => ?_⟩
          constructor
          · intro hp
            obtain ⟨q, hqmem, hq⟩ := List.mem_map.mp hp
            subst hq
            refine ⟨q, rfl, ?_⟩
            have hqne : q ≠ [] := by rintro rfl; exact hnilsub hqmem
            rw [side_tree_deep hqne hc1 rfl, side_tree_deep hqne hc2 rfl]
            exact (hsubmem q).mp hqmem
          · rintro ⟨q, rfl, hch⟩
            match q with
            | [] =>
              rw [side_tree_nil hc1, side_tree_nil hc2] at hch
              simp [changedAt, hm] at hch
            | x :: xs =>
              rw [side_tree_deep (List.cons_ne_nil x xs) hc1 rfl,
                side_tree_deep (List.cons_ne_nil x xs) hc2 rfl] at hch
              exact List.mem_map_of_mem _ ((hsubmem _).mpr hch)
        · rw [if_neg hm]
          refine ⟨psub.map (fun p => n :: p) ++ [[n]], rfl, fun p => ?_⟩
          rw [List.mem_append, List.mem_singleton, List.mem_map]
          constructor
          · rintro (⟨q, hqmem, hq⟩ | rfl)
            · subst hq
              refine ⟨q, rfl, ?_⟩
              have hqne : q ≠ [] := by rintro rfl; exact hnilsub hqmem
              rw [side_tree_deep hqne hc1 rfl, side_tree_deep hqne hc2 rfl]
              exact (hsubmem q).mp hqmem
            · refine ⟨[], rfl, ?_⟩
              rw [side_tree_nil hc1, side_tree_nil hc2]
              simp [changedAt, hm]
          · rintro ⟨q, rfl, hch⟩
            match q with
            | [] => simp
            | x :: xs =>
              left
              rw [side_tree_deep (List.cons_ne_nil x xs) hc1 rfl,
                side_tree_deep (List.cons_ne_nil x xs) hc2 rfl] at hch
              exact ⟨x :: xs, (hsubmem _).mpr hch, rfl⟩

theorem diffTrees_char_aux :
    ∀ (k : Nat) (lhs rhs : Option Entries), sizeOf lhs + sizeOf rhs ≤ k →
      wfOpt lhs = true → wfOpt rhs = true → DiffChar lhs rhs := by
  intro k
  induction k with
  | zero =>
    intro lhs rhs h hw1 hw2
    exact absurd h
      (by have := optEntries_size_pos lhs; have := optEntries_size_pos rhs; omega)
  | succ k ih =>
    intro lhs rhs hk hw1 hw2
    have IH : ∀ l r : Option Entries, sizeOf l + sizeOf r < sizeOf lhs + sizeOf rhs →
        wfOpt l = true → wfOpt r = true → DiffChar l r := fun l r hlt hwl hwr =>
      ih l r (by omega) hwl hwr
    have hnames : ∀ names : List String,
        ∃ ps, diffNames lhs rhs names = .ok ps ∧
          ∀ p, p ∈ ps ↔ ∃ n, n ∈ names ∧ ∃ q, p = n :: q ∧
            changedAt (classifyEntry (lookupPathOpt lhs (n :: q)))
              (classifyEntry (lookupPathOpt rhs (n :: q))) = true := by
      intro names
      induction names with
      | nil => exact ⟨[], diffNames_nil _ _, by simp⟩
      | cons n rest ihn =>
        obtain ⟨psr, hpsr, hmemr⟩ := ihn
        obtain ⟨l, hl, hmeml⟩ := diffOne_char lhs rhs n hw1 hw2 IH
        refine ⟨l ++ psr, ?_, ?_⟩
        · rw [diffNames_cons, hl, hpsr]
        · intro p
          rw [List.mem_append, hmeml p, hmemr p]
          constructor
          · rintro (⟨q, rfl, h⟩ | ⟨n2, hn2, q, rfl, h⟩)
            · exact ⟨n, List.mem_cons_self n rest, q, rfl, h⟩
            · exact ⟨n2, List.mem_cons_of_mem _ hn2, q, rfl, h⟩
          · rintro ⟨n2, hn2, q, rfl, h⟩
            rcases List.mem_cons.mp hn2 with rfl | hmem
            · exact Or.inl ⟨q, rfl, h⟩
            · exact Or.inr ⟨n2, hmem, q, rfl, h⟩
    obtain ⟨ps, hps, hmem⟩ := hnames (unionNames lhs rhs)
    refine ⟨ps, by rw [diffTrees]; exact hps, fun p => ?_⟩
    rw [hmem p]
    constructor
    · rintro ⟨n, hn, q, rfl, h⟩
      exact h
    · intro h
      match p with
      | [] =>
        rw [lookupPathOpt_nil, lookupPathOpt_nil] at h
        simp [classifyEntry, changedAt] at h
      | n :: q =>
        refine ⟨n, ?_, q, rfl, h⟩
        by_contra hnin
        obtain ⟨e1, e2⟩ := optLookup_none_of_not_union hnin
        rw [lookupPathOpt_cons_none q e1, lookupPathOpt_cons_none q e2] at h
        simp [classifyEntry, changedAt] at h

/-- Diff membership characterization for well-formed optional trees. -/
theorem diffTrees_char (lhs rhs : Option Entries)
    (hw1 : wfOpt lhs = true) (hw2 : wfOpt rhs = true) : DiffChar lhs rhs :=
  diffTrees_char_aux (sizeOf lhs + sizeOf rhs) lhs rhs le_rfl hw1 hw2

/-- An edit value: `Some (oid, mode)` upserts, `None` deletes
(`hydrate_tree`'s entry map values). -/
abbrev EditVal := Option (Obj × Nat)

/-- An edit batch: relative paths mapped to edit values.  The Rust code keys
them in a `HashMap`, so batches produced there have unique keys and arbitrary
iteration order; the model keeps an association list and inserts with
hash-map (replace-or-add) semantics. -/
abbrev Edits := List (Rpath × EditVal)

/-- The state of a `git2::TreeBuilder`: the entries of the tree being built. -/
abbrev Builder := Entries

/-- Hash-map insert into an association list: replace the value at an
existing key, or add the binding. -/
def upsert {κ α : Type} [BEq κ] (l : List (κ × α)) (k : κ) (v : α) : List (κ × α) :=
  match l with
  | [] => [(k, v)]
  | (k2, v2) :: rest => if k2 == k then (k, v) :: rest else (k2, v2) :: upsert rest k v

/-- `dir_entries.entry(first).or_default().insert(rest, value)`: insert the
stripped edit into the per-child batch keyed by the path's first segment. -/
def upsertGroup (ds : List (String × Edits)) (f : String) (r : Rpath) (v : EditVal) :
    List (String × Edits) :=
  match ds with
  | [] => [(f, [(r, v)])]
  | (d, g) :: rest =>
    if d == f then (f, upsert g r v) :: rest else (d, g) :: upsertGroup rest f r v

/-- The partitioning loop of `hydrate_tree` (tree.rs lines 303-323): empty
paths are warned about and skipped, single-segment paths become direct file
edits, longer paths are bucketed by first segment with the remainder as the
key inside the bucket.  Returns (warned edits, file entries, dir entries). -/
def splitEdits : Edits → Edits × List (String × EditVal) × List (String × Edits)
  | [] => ([], [], [])
  | (p, v) :: rest =>
    let t := splitEdits rest
    match p with
    | [] => ((p, v) :: t.1, t.2.1, t.2.2)
    | [f] => (t.1, upsert t.2.1 f v, t.2.2)
    | f :: r => (t.1, t.2.1, upsertGroup t.2.2 f r v)

/-- `TreeBuilder::insert`: upsert an entry by name. -/
def builderInsert (b : Builder) (n : String) (o : Obj) (m : Nat) : Builder :=
  match b with
  | [] => [(n, o, m)]
  | (n2, e2) :: rest =>
    if n2 == n then (n, o, m) :: rest else (n2, e2) :: builderInsert rest n o m

/-- `remove_entry_if_exists` (tree.rs lines 391-396): look the name up in the
builder first, and remove it only when present, since `TreeBuilder::remove`
errors on a missing entry. -/
def remove_entry_if_exists (b : Builder) (n : String) : Builder :=
  if (lookupName b n).isSome then b.filter (fun e => !(e.1 == n)) else b

/-- Applying the direct (single-segment) file edits to the builder
(tree.rs lines 330-347): `Some` inserts, `None` removes if present. -/
def applyFileEdits (b : Builder) : List (String × EditVal) → Builder
  | [] => b
  | (n, v) :: rest =>
    applyFileEdits
      (match v with
       | some (o, m) => builderInsert b n o m
       | none => remove_entry_if_exists b n)
      rest

/-- The recursive base for one dir group (tree.rs lines 350-358): look the
name up in the evolving builder; an existing entry that is non-zero (always,
in the model: zero OIDs never occur inside trees) and of tree kind is
resolved as a tree and used as the base, anything else gives no base. -/
def dirBase (b : Builder) (d : String) : Option Entries :=
  match lookupName b d with
  | some (o, m) =>
    if entryKindIsTree m then
      match o with
      | .tree es => some es
      | .blob _ => none
    else none
  | none => none

/-- Termination measure: total number of path segments in an edit batch. -/
def editsWeight : Edits → Nat
  | [] => 0
  | (p, _) :: rest => p.length + editsWeight rest

/-- Termination measure for dir groups. -/
def groupsWeight : List (String × Edits) → Nat
  | [] => 0
  | (_, g) :: rest => 1 + editsWeight g + groupsWeight rest

theorem editsWeight_upsert (g : Edits) (r : Rpath) (v : EditVal) :
    editsWeight (upsert g r v) ≤ r.length + editsWeight g := by
  induction g with
  | nil => simp [upsert, editsWeight]
  | cons e rest ih =>
    obtain ⟨p, w⟩ := e
    simp only [upsert]
    split
    · simp only [editsWeight]; omega
    · simp only [editsWeight]; omega

theorem groupsWeight_upsertGroup (ds : List (String × Edits)) (f : String) (r : Rpath)
    (v : EditVal) :
    groupsWeight (upsertGroup ds f r v) ≤ r.length + 1 + groupsWeight ds := by
  induction ds with
  | nil =>
    simp only [upsertGroup, groupsWeight, editsWeight]
    omega
  | cons e rest ih =>
    obtain ⟨d, g⟩ := e
    simp only [upsertGroup]
    split
    · have := editsWeight_upsert g r v
      simp only [groupsWeight]
      omega
    · simp only [groupsWeight]
      omega

theorem splitEdits_groupsWeight (es : Edits) :
    groupsWeight (splitEdits es).2.2 ≤ editsWeight es := by
  induction es with
  | nil => simp [splitEdits, groupsWeight, editsWeight]
  | cons e rest ih =>
    obtain ⟨p, v⟩ := e
    match p with
    | [] => simpa [splitEdits, editsWeight] using ih
    | [f] =>
      simp only [splitEdits, editsWeight]
      omega
    | f :: g :: r =>
      simp only [splitEdits, editsWeight]
      have := groupsWeight_upsertGroup (splitEdits rest).2.2 f (g :: r) v
      simp only [List.length_cons] at *
      omega

mutual

/-- Shallow embedding of `hydrate_tree` (tree.rs lines 298-381).  It returns
the list of warned-about (empty-path) edits together with the entries of the
newly built tree; OIDs are modelled by objects themselves, so returning the
entry list is returning the new tree's OID.  The builder is seeded from the
base tree (or the empty tree), direct file edits are applied first, then each
dir group is hydrated recursively against the evolving builder state and
written back, dropping entries whose hydrated subtree came out empty. -/
def hydrate_tree (tree : Option Entries) (entries : Edits) : Edits × Entries :=
  let t := splitEdits entries
  let b1 := applyFileEdits (tree.getD []) t.2.1
  let r := processDirs b1 t.2.2
  (t.1 ++ r.1, r.2)
termination_by (editsWeight entries, 1)
decreasing_by
  have h := splitEdits_groupsWeight entries
  rcases Nat.lt_or_ge (groupsWeight (splitEdits entries).2.2) (editsWeight entries) with
    hlt | hge
  · exact Prod.Lex.left _ _ hlt
  · have heq : groupsWeight (splitEdits entries).2.2 = editsWeight entries :=
      Nat.le_antisymm h hge
    rw [heq]
    exact Prod.Lex.right _ (by omega)

/-- The dir-group loop of `hydrate_tree` (tree.rs lines 349-377), threading
the builder state: hydrate each group against the base resolved from the
evolving builder, then remove the entry when the resulting subtree is empty
and upsert it with mode `Tree` otherwise. -/
def processDirs (b : Builder) (ds : List (String × Edits)) : Edits × Builder :=
  match ds with
  | [] => ([], b)
  | (d, g) :: rest =>
    let sub := hydrate_tree (dirBase b d) g
    let b2 := if sub.2.isEmpty then remove_entry_if_exists b d
              else builderInsert b d (Obj.tree sub.2) treeMode
    let r := processDirs b2 rest
    (sub.1 ++ r.1, r.2)
termination_by (groupsWeight ds, 0)
decreasing_by
  · apply Prod.Lex.left
    simp only [groupsWeight]
    omega
  · apply Prod.Lex.left
    simp only [groupsWeight]
    omega

end

/-- libgit2 filemode normalization (`normalize_filemode` in tree.c, what
`git_tree_entry_filemode` applies to the raw stored attributes, in contrast
to `git_tree_entry_filemode_raw`): a tree-typed mode becomes the canonical
tree mode, then a mode with any executable permission bit set becomes the
canonical executable-blob mode, then commit (gitlink) and symlink types keep
their canonical form, and everything else becomes the canonical blob mode
(for example the historical group-writable 0o100664 becomes 0o100644). -/
def normalizeMode (m : Nat) : Nat :=
  if m &&& 61440 == 16384 then 16384
  else if m &&& 73 != 0 then 33261
  else if m &&& 61440 == 57344 then 57344
  else if m &&& 61440 == 40960 then 40960
  else 33188

/-- Shallow embedding of `dehydrate_tree` (tree.rs lines 402-422): resolve
each requested path in the source tree, record `some` of the found entry —
with the mode `FileMode::from(tree_entry.filemode())` reads, which is the
libgit2-normalized mode, not the raw stored one — or `none` when the path is
not found, and hydrate the resulting batch from no base. -/
def dehydrate_tree (tree : Entries) (paths : List Rpath) : Edits × Entries :=
  hydrate_tree none
    (paths.map (fun p => (p, (lookupPath tree p).map (fun om => (om.1, normalizeMode om.2)))))

/-- Shallow embedding of `make_empty_tree` (tree.rs lines 383-386). -/
def make_empty_tree : Entries := (hydrate_tree none []).2

theorem hydrate_tree_eq (tree : Option Entries) (entries : Edits) :
    hydrate_tree tree entries =
      ((splitEdits entries).1 ++
        (processDirs (applyFileEdits (tree.getD []) (splitEdits entries).2.1)
          (splitEdits entries).2.2).1,
       (processDirs (applyFileEdits (tree.getD []) (splitEdits entries).2.1)
          (splitEdits entries).2.2).2) := by
  rw [hydrate_tree]

theorem processDirs_nil (b : Builder) : processDirs b [] = ([], b) := by
  rw [processDirs]

theorem processDirs_cons (b : Builder) (d : String) (g : Edits)
    (rest : List (String × Edits)) :
    processDirs b ((d, g) :: rest) =
      ((hydrate_tree (dirBase b d) g).1 ++
        (processDirs
          (if ((hydrate_tree (dirBase b d) g).2).isEmpty then remove_entry_if_exists b d
           else builderInsert b d (Obj.tree (hydrate_tree (dirBase b d) g).2) treeMode)
          rest).1,
       (processDirs
          (if ((hydrate_tree (dirBase b d) g).2).isEmpty then remove_entry_if_exists b d
           else builderInsert b d (Obj.tree (hydrate_tree (dirBase b d) g).2) treeMode)
          rest).2) := by
  rw [processDirs]

theorem lookupName_nil (n : String) : lookupName [] n = none := rfl

theorem lookupName_cons (n2 : String) (e : Obj × Nat) (rest : Entries) (n : String) :
    lookupName ((n2, e) :: rest) n = if n2 == n then some e else lookupName rest n := by
  by_cases h : (n2 == n) = true
  · simp only [lookupName, h, if_true]
    rw [List.find?_cons_of_pos]
    exact h
  · simp only [lookupName, h, if_false]
    rw [List.find?_cons_of_neg]
    · rfl
    · exact h

theorem lookup_builderInsert_self (b : Builder) (n : String) (o : Obj) (m : Nat) :
    lookupName (builderInsert b n o m) n = some (o, m) := by
  induction b with
  | nil => simp [builderInsert, lookupName_cons]
  | cons e rest ih =>
    obtain ⟨n2, e2⟩ := e
    rw [builderInsert]
    split
    · rw [lookupName_cons]
      simp
    · rw [lookupName_cons]
      rename_i h
      rw [if_neg h]
      exact ih

theorem lookup_builderInsert_other {n2 n : String} (h : n2 ≠ n) (b : Builder) (o : Obj)
    (m : Nat) : lookupName (builderInsert b n2 o m) n = lookupName b n := by
  induction b with
  | nil =>
    rw [show builderInsert [] n2 o m = [(n2, o, m)] from rfl, lookupName_cons,
      if_neg (by simp [h])]
  | cons e rest ih =>
    obtain ⟨n3, e3⟩ := e
    rw [builderInsert]
    split
    · rename_i he
      have : n3 = n2 := by simpa using he
      subst this
      rw [lookupName_cons, lookupName_cons, if_neg (by simp [h]), if_neg (by simp [h])]
    · rw [lookupName_cons, lookupName_cons, ih]

theorem lookup_filter_self (b : Builder) (n : String) :
    lookupName (b.filter (fun e => !(e.1 == n))) n = none := by
  induction b with
  | nil => rfl
  | cons e rest ih =>
    obtain ⟨n2, e2⟩ := e
    rw [List.filter]
    by_cases h : (n2 == n) = true
    · simp only [h, Bool.not_true]
      exact ih
    · simp only [h, Bool.not_false]
      rw [lookupName_cons, if_neg h]
      exact ih

theorem lookup_filter_other {n2 n : String} (h : n2 ≠ n) (b : Builder) :
    lookupName (b.filter (fun e => !(e.1 == n2))) n = lookupName b n := by
  induction b with
  | nil => rfl
  | cons e rest ih =>
    obtain ⟨n3, e3⟩ := e
    rw [List.filter]
    by_cases he : (n3 == n2) = true
    · simp only [he, Bool.not_true]
      rw [ih, lookupName_cons]
      have : n3 = n2 := by simpa using he
      subst this
      rw [if_neg (by simp [h])]
    · simp only [he, Bool.not_false]
      rw [lookupName_cons, lookupName_cons, ih]

theorem lookup_remove_self (b : Builder) (n : String) :
    lookupName (remove_entry_if_exists b n) n = none := by
  rw [remove_entry_if_exists]
  split
  · exact lookup_filter_self b n
  · rename_i h
    exact Option.not_isSome_iff_eq_none.mp (by simpa using h)

theorem lookup_remove_other {n2 n : String} (h : n2 ≠ n) (b : Builder) :
    lookupName (remove_entry_if_exists b n2) n = lookupName b n := by
  rw [remove_entry_if_exists]
  split
  · exact lookup_filter_other h b
  · rfl

/-- Claim C2: hydrating any tree with an empty edit batch rebuilds exactly
that tree, hence (by content addressing) returns the tree's own OID. -/
theorem hydrate_empty_batch_id (te : Entries) :
    (hydrate_tree (some te) []).2 = te := by
  rw [hydrate_tree_eq]
  simp [splitEdits, applyFileEdits, processDirs_nil]

theorem splitEdits_warns (es : Edits) :
    (splitEdits es).1 = es.filter (fun e => e.1.isEmpty) := by
  induction es with
  | nil => rfl
  | cons e rest ih =>
    obtain ⟨p, v⟩ := e
    match p with
    | [] =>
      simp only [splitEdits, List.filter]
      rw [show (([] : Rpath), v).1.isEmpty = true from rfl]
      rw [ih]
    | [f] =>
      simp only [splitEdits, List.filter]
      rw [show (([f] : Rpath), v).1.isEmpty = false from rfl]
      exact ih
    | f :: g :: r =>
      simp only [splitEdits, List.filter]
      rw [show ((f :: g :: r : Rpath), v).1.isEmpty = false from rfl]
      exact ih

theorem splitEdits_skip_empty (es : Edits) :
    (splitEdits es).2 = (splitEdits (es.filter (fun e => !e.1.isEmpty))).2 := by
  induction es with
  | nil => rfl
  | cons e rest ih =>
    obtain ⟨p, v⟩ := e
    match p with
    | [] => simpa [splitEdits, List.filter_cons] using ih
    | [f] => simp [splitEdits, List.filter_cons, ih]
    | f :: g :: r => simp [splitEdits, List.filter_cons, ih]

theorem upsert_mem {κ α : Type} [BEq κ] {l : List (κ × α)} {k : κ} {v : α}
    {x : κ × α} (h : x ∈ upsert l k v) : x = (k, v) ∨ x ∈ l := by
  induction l with
  | nil => simpa [upsert] using h
  | cons e rest ih =>
    rw [upsert] at h
    split at h
    · rcases List.mem_cons.mp h with h1 | h2
      · exact Or.inl h1
      · exact Or.inr (List.mem_cons_of_mem _ h2)
    · rcases List.mem_cons.mp h with h1 | h2
      · exact Or.inr (h1 ▸ List.mem_cons_self _ _)
      · rcases ih h2 with h3 | h3
        · exact Or.inl h3
        · exact Or.inr (List.mem_cons_of_mem _ h3)

/-- All edit paths inside every dir group are nonempty. -/
def groupKeysNonempty (ds : List (String × Edits)) : Prop :=
  ∀ d g, (d, g) ∈ ds → ∀ r v, (r, v) ∈ g → r ≠ []

theorem upsertGroup_keys {ds : List (String × Edits)} {f : String} {r0 : Rpath}
    {v0 : EditVal} (hds : groupKeysNonempty ds) (hr : r0 ≠ []) :
    groupKeysNonempty (upsertGroup ds f r0 v0) := by
  induction ds with
  | nil =>
    intro d g hmem r v hrv
    simp only [upsertGroup, List.mem_singleton] at hmem
    cases hmem
    rw [List.mem_singleton] at hrv
    cases hrv
    exact hr
  | cons e rest ih =>
    obtain ⟨d0, g0⟩ := e
    intro d g hmem r v hrv
    rw [upsertGroup] at hmem
    split at hmem
    · rcases List.mem_cons.mp hmem with h1 | h2
      · cases h1
        rcases upsert_mem hrv with h3 | h3
        · cases h3; exact hr
        · exact hds d0 g0 (List.mem_cons_self _ _) r v h3
      · exact hds d g (List.mem_cons_of_mem _ h2) r v hrv
    · rcases List.mem_cons.mp hmem with h1 | h2
      · cases h1
        exact hds _ _ (List.mem_cons_self _ _) r v hrv
      · have hrest : groupKeysNonempty rest := fun d2 g2 hm r2 v2 hr2 =>
          hds d2 g2 (List.mem_cons_of_mem _ hm) r2 v2 hr2
        exact ih hrest d g h2 r v hrv

theorem splitEdits_groupKeys (es : Edits) : groupKeysNonempty (splitEdits es).2.2 := by
  induction es with
  | nil => intro d g hmem; cases hmem
  | cons e rest ih =>
    obtain ⟨p, v⟩ := e
    match p with
    | [] => simpa [splitEdits] using ih
    | [f] => simpa [splitEdits] using ih
    | f :: g0 :: r =>
      simp only [splitEdits]
      exact upsertGroup_keys ih (List.cons_ne_nil g0 r)

theorem groupsWeight_mem {ds : List (String × Edits)} {d : String} {g : Edits}
    (h : (d, g) ∈ ds) : 1 + editsWeight g ≤ groupsWeight ds := by
  induction ds with
  | nil => cases h
  | cons e rest ih =>
    rcases List.mem_cons.mp h with h1 | h2
    · subst h1
      simp only [groupsWeight]
      omega
    · have := ih h2
      obtain ⟨d2, g2⟩ := e
      simp only [groupsWeight]
      omega

theorem splitEdits_group_weight {es : Edits} {d : String} {g : Edits}
    (h : (d, g) ∈ (splitEdits es).2.2) : editsWeight g < editsWeight es := by
  have h1 := groupsWeight_mem h
  have h2 := splitEdits_groupsWeight es
  omega

theorem groupsWeight_zero {ds : List (String × Edits)} (h : groupsWeight ds = 0) :
    ds = [] := by
  match ds with
  | [] => rfl
  | (d, g) :: rest => simp [groupsWeight] at h

theorem processDirs_warns_nil {ds : List (String × Edits)}
    (h : ∀ d g, (d, g) ∈ ds → ∀ base, (hydrate_tree base g).1 = []) (b : Builder) :
    (processDirs b ds).1 = [] := by
  induction ds generalizing b with
  | nil => rw [processDirs_nil]
  | cons e rest ih =>
    obtain ⟨d, g⟩ := e
    rw [processDirs_cons]
    simp only []
    rw [h d g (List.mem_cons_self _ _) (dirBase b d)]
    rw [ih (fun d2 g2 hm base => h d2 g2 (List.mem_cons_of_mem _ hm) base)]
    rfl

theorem hydrate_warns_nil_aux :
    ∀ (k : Nat) (es : Edits), editsWeight es ≤ k → (∀ pv ∈ es, pv.1 ≠ ([] : Rpath)) →
      ∀ base, (hydrate_tree base es).1 = [] := by
  intro k
  induction k with
  | zero =>
    intro es hw hne base
    rw [hydrate_tree_eq]
    simp only []
    have hz : groupsWeight (splitEdits es).2.2 = 0 := by
      have := splitEdits_groupsWeight es
      omega
    rw [groupsWeight_zero hz, processDirs_nil]
    have : (splitEdits es).1 = [] := by
      rw [splitEdits_warns]
      rw [List.filter_eq_nil_iff]
      intro a ha
      have := hne a ha
      simpa [List.isEmpty_iff] using this
    rw [this]
    rfl
  | succ k ih =>
    intro es hw hne base
    rw [hydrate_tree_eq]
    simp only []
    have h1 : (splitEdits es).1 = [] := by
      rw [splitEdits_warns]
      rw [List.filter_eq_nil_iff]
      intro a ha
      have := hne a ha
      simpa [List.isEmpty_iff] using this
    have hgw : ∀ d g, (d, g) ∈ (splitEdits es).2.2 → ∀ base,
        (hydrate_tree base g).1 = [] := by
      intro d g hmem base2
      have hwg : editsWeight g ≤ k := by
        have := splitEdits_group_weight hmem
        omega
      exact ih g hwg
        (fun pv hpv => splitEdits_groupKeys es d g hmem pv.1 pv.2 (by simpa using hpv)) base2
    rw [h1, processDirs_warns_nil hgw]
    rfl

theorem hydrate_warns_nil {es : Edits} (h : ∀ pv ∈ es, pv.1 ≠ ([] : Rpath))
    (base : Option Entries) : (hydrate_tree base es).1 = [] :=
  hydrate_warns_nil_aux (editsWeight es) es le_rfl h base

/-- Claim C8: an empty-path edit is recorded as a diagnostic and skipped —
the warned-about edits are exactly the empty-path ones, and the built tree is
the one obtained from the batch with the empty-path edits removed; hydration
is total, so the batch never fails on account of them. -/
theorem hydrate_empty_path_skipped (t : Option Entries) (es : Edits) :
    (hydrate_tree t es).1 = es.filter (fun e => e.1.isEmpty) ∧
    (hydrate_tree t es).2 = (hydrate_tree t (es.filter (fun e => !e.1.isEmpty))).2 := by
  constructor
  · rw [hydrate_tree_eq]
    simp only []
    have hgw : ∀ d g, (d, g) ∈ (splitEdits es).2.2 → ∀ base,
        (hydrate_tree base g).1 = [] := fun d g hmem base =>
      hydrate_warns_nil
        (fun pv hpv => splitEdits_groupKeys es d g hmem pv.1 pv.2 (by simpa using hpv)) base
    rw [processDirs_warns_nil hgw, splitEdits_warns, List.append_nil]
  · rw [hydrate_tree_eq, hydrate_tree_eq]
    simp only []
    rw [← splitEdits_skip_empty]

theorem upsert_fresh {κ α : Type} [BEq κ] {l : List (κ × α)} {k : κ} {v : α}
    (h : ∀ e ∈ l, (e.1 == k) = false) : upsert l k v = l ++ [(k, v)] := by
  induction l with
  | nil => rfl
  | cons e rest ih =>
    obtain ⟨k2, v2⟩ := e
    rw [upsert]
    rw [if_neg (by simp [h (k2, v2) (List.mem_cons_self _ _)])]
    rw [ih (fun e he => h e (List.mem_cons_of_mem _ he))]
    rfl

theorem applyFileEdits_cons (b : Builder) (n : String) (v : EditVal)
    (rest : List (String × EditVal)) :
    applyFileEdits b ((n, v) :: rest) =
      applyFileEdits
        (match v with
         | some (o, m) => builderInsert b n o m
         | none => remove_entry_if_exists b n)
        rest := by
  rw [applyFileEdits.eq_def]

theorem applyFileEdits_append (b : Builder) (fs1 fs2 : List (String × EditVal)) :
    applyFileEdits b (fs1 ++ fs2) = applyFileEdits (applyFileEdits b fs1) fs2 := by
  induction fs1 generalizing b with
  | nil => rfl
  | cons e rest ih =>
    obtain ⟨n, v⟩ := e
    rw [List.cons_append, applyFileEdits_cons, applyFileEdits_cons, ih]

theorem lookup_applyFileEdits_other {fs : List (String × EditVal)} {n : String}
    (h : ∀ e ∈ fs, e.1 ≠ n) (b : Builder) :
    lookupName (applyFileEdits b fs) n = lookupName b n := by
  induction fs generalizing b with
  | nil => rfl
  | cons e rest ih =>
    obtain ⟨n2, v⟩ := e
    have hn2 : n2 ≠ n := h (n2, v) (List.mem_cons_self _ _)
    rw [applyFileEdits_cons]
    rw [ih (fun e he => h e (List.mem_cons_of_mem _ he))]
    match v with
    | some (o, m) => exact lookup_builderInsert_other hn2 b o m
    | none => exact lookup_remove_other hn2 b

theorem splitEdits_file_mem {es : Edits} {f : String} {v : EditVal}
    (h : (f, v) ∈ (splitEdits es).2.1) : ([f], v) ∈ es := by
  induction es with
  | nil => cases h
  | cons e rest ih =>
    obtain ⟨p, w⟩ := e
    match p with
    | [] =>
      simp only [splitEdits] at h
      exact List.mem_cons_of_mem _ (ih h)
    | [f2] =>
      simp only [splitEdits] at h
      rcases upsert_mem h with h1 | h1
      · cases h1
        exact List.mem_cons_self _ _
      · exact List.mem_cons_of_mem _ (ih h1)
    | f2 :: g2 :: r2 =>
      simp only [splitEdits] at h
      exact List.mem_cons_of_mem _ (ih h)

theorem remove_noop {b : Builder} {n : String} (h : lookupName b n = none) :
    remove_entry_if_exists b n = b := by
  rw [remove_entry_if_exists, if_neg]
  simp [h]

theorem lookupName_getD (t : Option Entries) (n : String) :
    lookupName (t.getD []) n = optLookup t n := by
  cases t <;> rfl

/-- Claim C9: a `None` (delete) edit at a single-segment path that is absent
from the tree being built is a silent no-op — the hydration returns the same
tree OID as the same hydration without that edit. -/
theorem hydrate_delete_missing_noop (t : Option Entries) (es : Edits) (n : String)
    (hbase : optLookup t n = none)
    (hes : ∀ pv ∈ es, pv.1 ≠ [n]) :
    (hydrate_tree t (([n], none) :: es)).2 = (hydrate_tree t es).2 := by
  rw [hydrate_tree_eq, hydrate_tree_eq]
  simp only []
  have hsplit : splitEdits (([n], none) :: es) =
      ((splitEdits es).1, upsert (splitEdits es).2.1 n none, (splitEdits es).2.2) := by
    rw [splitEdits]
  rw [hsplit]
  simp only []
  have hfresh : ∀ e ∈ (splitEdits es).2.1, (e.1 == n) = false := by
    intro e he
    obtain ⟨f, v⟩ := e
    have := hes ([f], v) (splitEdits_file_mem he)
    simp only [beq_eq_false_iff_ne, ne_eq]
    intro hfn
    exact this (by rw [hfn])
  rw [upsert_fresh hfresh, applyFileEdits_append]
  have hkey : ∀ e ∈ (splitEdits es).2.1, e.1 ≠ n := by
    intro e he
    have := hfresh e he
    simpa using this
  have hlook : lookupName (applyFileEdits (t.getD []) (splitEdits es).2.1) n = none := by
    rw [lookup_applyFileEdits_other hkey, lookupName_getD]
    exact hbase
  rw [show applyFileEdits (applyFileEdits (t.getD []) (splitEdits es).2.1) [(n, none)] =
      remove_entry_if_exists (applyFileEdits (t.getD []) (splitEdits es).2.1) n from rfl]
  rw [remove_noop hlook]

theorem dirBase_congr {b1 b2 : Builder} {d : String}
    (h : lookupName b1 d = lookupName b2 d) : dirBase b1 d = dirBase b2 d := by
  rw [dirBase, dirBase, h]

theorem processDirs_lookup_not_mem {ds : List (String × Edits)} {d : String}
    (h : ∀ e ∈ ds, e.1 ≠ d) (b : Builder) :
    lookupName (processDirs b ds).2 d = lookupName b d := by
  induction ds generalizing b with
  | nil => rw [processDirs_nil]
  | cons e rest ih =>
    obtain ⟨d0, g0⟩ := e
    have hd0 : d0 ≠ d := h (d0, g0) (List.mem_cons_self _ _)
    rw [processDirs_cons]
    simp only []
    rw [ih (fun e he => h e (List.mem_cons_of_mem _ he))]
    split
    · exact lookup_remove_other hd0 b
    · exact lookup_builderInsert_other hd0 b _ _

theorem upsertGroup_key_mem {ds : List (String × Edits)} {f : String} {r : Rpath}
    {v : EditVal} {x : String}
    (h : x ∈ (upsertGroup ds f r v).map (fun e => e.1)) :
    x ∈ ds.map (fun e => e.1) ∨ x = f := by
  induction ds with
  | nil => simpa [upsertGroup] using h
  | cons e rest ih =>
    obtain ⟨d0, g0⟩ := e
    rw [upsertGroup] at h
    split at h
    · rename_i he
      have hd0 : d0 = f := by simpa using he
      simp only [List.map_cons, List.mem_cons] at h ⊢
      tauto
    · simp only [List.map_cons, List.mem_cons] at h ⊢
      rcases h with h1 | h2
      · tauto
      · rcases ih h2 with h3 | h3 <;> tauto

theorem upsertGroup_nodup {ds : List (String × Edits)} {f : String} {r : Rpath}
    {v : EditVal} (h : (ds.map (fun e => e.1)).Nodup) :
    ((upsertGroup ds f r v).map (fun e => e.1)).Nodup := by
  induction ds with
  | nil => simp [upsertGroup]
  | cons e rest ih =>
    obtain ⟨d0, g0⟩ := e
    rw [List.map_cons, List.nodup_cons] at h
    rw [upsertGroup]
    split
    · rename_i he
      have hd0 : d0 = f := by simpa using he
      subst hd0
      rw [List.map_cons, List.nodup_cons]
      exact h
    · rename_i he
      have hd0 : d0 ≠ f := by simpa using he
      rw [List.map_cons, List.nodup_cons]
      refine ⟨?_, ih h.2⟩
      intro hmem
      rcases upsertGroup_key_mem hmem with h1 | h1
      · exact h.1 h1
      · exact hd0 h1

theorem splitEdits_groups_nodup (es : Edits) :
    (((splitEdits es).2.2).map (fun e => e.1)).Nodup := by
  induction es with
  | nil => simp [splitEdits]
  | cons e rest ih =>
    obtain ⟨p, v⟩ := e
    match p with
    | [] => simpa [splitEdits] using ih
    | [f] => simpa [splitEdits] using ih
    | f :: g :: r =>
      simp only [splitEdits]
      exact upsertGroup_nodup ih

theorem processDirs_lookup_mem {ds : List (String × Edits)}
    (hnodup : (ds.map (fun e => e.1)).Nodup) {d : String} {g : Edits}
    (hmem : (d, g) ∈ ds) (b : Builder) :
    lookupName (processDirs b ds).2 d =
      (if ((hydrate_tree (dirBase b d) g).2).isEmpty then none
       else some (Obj.tree (hydrate_tree (dirBase b d) g).2, treeMode)) := by
  induction ds generalizing b with
  | nil => cases hmem
  | cons e rest ih =>
    obtain ⟨d0, g0⟩ := e
    rw [List.map_cons, List.nodup_cons] at hnodup
    rcases List.mem_cons.mp hmem with h1 | h2
    · injection h1 with hd hg
      subst hd
      subst hg
      rw [processDirs_cons]
      simp only []
      have hnm : ∀ e2 ∈ rest, e2.1 ≠ d := by
        intro e2 he2 hq
        exact hnodup.1 (hq ▸ List.mem_map_of_mem (fun e3 => e3.1) he2)
      rw [processDirs_lookup_not_mem hnm]
      by_cases hE : ((hydrate_tree (dirBase b d) g).2).isEmpty = true
      · rw [if_pos hE, if_pos hE, lookup_remove_self]
      · rw [if_neg hE, if_neg hE, lookup_builderInsert_self]
    · have hd : d ≠ d0 := by
        intro hq
        exact hnodup.1 (hq ▸ List.mem_map_of_mem (fun e => e.1) h2)
      rw [processDirs_cons]
      simp only []
      have hlk : lookupName
          (if ((hydrate_tree (dirBase b d0) g0).2).isEmpty then remove_entry_if_exists b d0
           else builderInsert b d0 (Obj.tree (hydrate_tree (dirBase b d0) g0).2) treeMode) d =
          lookupName b d := by
        split
        · exact lookup_remove_other (Ne.symm hd) b
        · exact lookup_builderInsert_other (Ne.symm hd) b _ _
      rw [ih hnodup.2 h2]
      rw [dirBase_congr hlk]

/-- Claim C7: each dir group's recursive base is resolved by looking its
first segment up in the evolving builder state, after this level's
single-segment edits have been applied (`dirBase`); the group's hydration
result is then written back at that name (dropped when empty, upserted with
mode `Tree` otherwise), discarding any non-tree entry occupying the name as
a base. -/
theorem hydrate_dir_group (t : Option Entries) (es : Edits) (d : String) (g : Edits)
    (hmem : (d, g) ∈ (splitEdits es).2.2) :
    lookupName (hydrate_tree t es).2 d =
      (if ((hydrate_tree
            (dirBase (applyFileEdits (t.getD []) (splitEdits es).2.1) d) g).2).isEmpty
       then none
       else some (Obj.tree (hydrate_tree
         (dirBase (applyFileEdits (t.getD []) (splitEdits es).2.1) d) g).2, treeMode)) := by
  rw [hydrate_tree_eq]
  simp only []
  exact processDirs_lookup_mem (splitEdits_groups_nodup es) hmem _

mutual

/-- The relative paths of all non-directory entries reachable inside an
object ("every entry under a directory", the deletable leaves). -/
def leafPathsObj : Obj → List Rpath
  | .blob _ => []
  | .tree es => leafPaths es

/-- The relative paths of all non-directory entries of a tree: a tree-kind
entry resolving to a tree contributes its own leaf paths prefixed with the
entry name, any other entry is itself a leaf. -/
def leafPaths : Entries → List Rpath
  | [] => []
  | (n, o, m) :: rest =>
    (if entryKindIsTree m then
       match o with
       | .tree _ => (leafPathsObj o).map (fun p => n :: p)
       | .blob _ => [[n]]
     else [[n]]) ++ leafPaths rest

end

/-- The tails that entry `(o, m)` contributes to the leaf paths under its
name: `[[]]` when the entry is itself a leaf, the subtree's leaf paths when
it is a tree-kind entry resolving to a tree. -/
def leafTail (o : Obj) (m : Nat) : List Rpath :=
  if entryKindIsTree m then
    match o with
    | .tree _ => leafPathsObj o
    | .blob _ => [[]]
  else [[]]

mutual

/-- No entry reachable inside this object points at an empty subtree. -/
def noEmptyObj : Obj → Bool
  | .blob _ => true
  | .tree es => noEmptyEntries es

/-- No tree-kind entry of this tree (or, recursively, of its subtrees)
points at an empty tree.  Trees materialized from a git index satisfy this
(git cannot track empty directories). -/
def noEmptyEntries : Entries → Bool
  | [] => true
  | (_, o, m) :: rest =>
    (if entryKindIsTree m then
       match o with
       | .tree sub => !sub.isEmpty && noEmptyObj o
       | .blob _ => true
     else true) && noEmptyEntries rest

end

theorem leafPaths_cons (n : String) (o : Obj) (m : Nat) (rest : Entries) :
    leafPaths ((n, o, m) :: rest) =
      (leafTail o m).map (fun p => n :: p) ++ leafPaths rest := by
  rw [leafPaths.eq_def, leafTail.eq_def]
  simp only []
  split
  · cases o
    · rfl
    · rfl
  · rfl

theorem leafTail_cases (o : Obj) (m : Nat) :
    leafTail o m = [([] : Rpath)] ∨
      (entryKindIsTree m = true ∧ ∃ sub, o = Obj.tree sub ∧ leafTail o m = leafPaths sub) := by
  rw [leafTail.eq_def]
  by_cases hk : entryKindIsTree m = true
  · rw [if_pos hk]
    cases o with
    | blob b => exact Or.inl rfl
    | tree sub => exact Or.inr ⟨hk, sub, rfl, by rw [leafPathsObj]⟩
  · rw [if_neg hk]
    exact Or.inl rfl

theorem nil_not_mem_leafPaths (es : Entries) : ([] : Rpath) ∉ leafPaths es := by
  induction es with
  | nil => simp [leafPaths]
  | cons e rest ih =>
    obtain ⟨n, o, m⟩ := e
    rw [leafPaths_cons]
    rw [List.mem_append]
    rintro (h | h)
    · obtain ⟨q, _, hq⟩ := List.mem_map.mp h
      cases hq
    · exact ih h

theorem leafPaths_mem {es : Entries} {n : String} {p : Rpath} :
    n :: p ∈ leafPaths es ↔ ∃ o m, (n, o, m) ∈ es ∧ p ∈ leafTail o m := by
  induction es with
  | nil => simp [leafPaths]
  | cons e rest ih =>
    obtain ⟨n2, o2, m2⟩ := e
    rw [leafPaths_cons, List.mem_append, ih]
    constructor
    · rintro (h | ⟨o, m, hmem, hp⟩)
      · obtain ⟨q, hq, hqe⟩ := List.mem_map.mp h
        injection hqe with he1 he2
        subst he1
        subst he2
        exact ⟨o2, m2, List.mem_cons_self _ _, hq⟩
      · exact ⟨o, m, List.mem_cons_of_mem _ hmem, hp⟩
    · rintro ⟨o, m, hmem, hp⟩
      rcases List.mem_cons.mp hmem with h1 | h2
      · injection h1 with he1 he2
        subst he1
        injection he2 with he3 he4
        subst he3
        subst he4
        exact Or.inl (List.mem_map_of_mem _ hp)
      · exact Or.inr ⟨o, m, h2, hp⟩

theorem noEmptyEntries_tail {e : String × Obj × Nat} {rest : Entries}
    (h : noEmptyEntries (e :: rest) = true) : noEmptyEntries rest = true := by
  obtain ⟨n, o, m⟩ := e
  rw [noEmptyEntries.eq_def] at h
  simp only [Bool.and_eq_true] at h
  exact h.2

theorem noEmptyEntries_mem {es : Entries} {n : String} {sub : Entries} {m : Nat}
    (hne : noEmptyEntries es = true) (hmem : (n, Obj.tree sub, m) ∈ es)
    (hk : entryKindIsTree m = true) :
    sub ≠ [] ∧ noEmptyEntries sub = true := by
  induction es with
  | nil => cases hmem
  | cons e rest ih =>
    rcases List.mem_cons.mp hmem with h1 | h2
    · subst h1
      rw [noEmptyEntries.eq_def] at hne
      simp only [Bool.and_eq_true] at hne
      have h1 := hne.1
      rw [hk] at h1
      simp only [if_true, Bool.and_eq_true] at h1
      refine ⟨?_, ?_⟩
      · intro hs
        subst hs
        simp at h1
      · have := h1.2
        rwa [noEmptyObj] at this
    · exact ih (noEmptyEntries_tail hne) h2

theorem entries_size_pos (es : Entries) : 1 ≤ sizeOf es := by
  cases es
  · simp
  · simp only [List.cons.sizeOf_spec]
    omega

theorem leafPaths_ne_nil :
    ∀ (k : Nat) (es : Entries), sizeOf es ≤ k → noEmptyEntries es = true → es ≠ [] →
      leafPaths es ≠ [] := by
  intro k
  induction k with
  | zero =>
    intro es hsz
    have := entries_size_pos es
    omega
  | succ k ih =>
    intro es hsz hne hnil
    match es with
    | (n, o, m) :: rest =>
      rw [leafPaths_cons]
      intro hcontra
      rw [List.append_eq_nil] at hcontra
      have hmap := hcontra.1
      rw [List.map_eq_nil_iff] at hmap
      rcases leafTail_cases o m with h1 | ⟨hk, sub, rfl, h2⟩
      · rw [h1] at hmap
        cases hmap
      · rw [h2] at hmap
        have hne2 := noEmptyEntries_mem hne (List.mem_cons_self _ _) hk
        have hszsub : sizeOf sub ≤ k := by
          have : sizeOf (Obj.tree sub) < sizeOf (((n, Obj.tree sub, m) :: rest : Entries)) := by
            have h3 := List.sizeOf_lt_of_mem (List.mem_cons_self (n, Obj.tree sub, m) rest)
            simp only [Prod.mk.sizeOf_spec] at h3
            omega
          simp only [Obj.tree.sizeOf_spec] at this
          omega
        exact ih sub hszsub hne2.2 hne2.1 hmap

theorem wfEntries_nodupKeys {es : Entries} (h : wfEntries es = true) :
    (es.map (fun e => e.1)).Nodup := by
  induction es with
  | nil => simp
  | cons e rest ih =>
    obtain ⟨n, o, m⟩ := e
    rw [wfEntries.eq_def] at h
    simp only [Bool.and_eq_true] at h
    rw [List.map_cons, List.nodup_cons]
    refine ⟨?_, ih h.2⟩
    intro hmem
    obtain ⟨e2, he2, hq⟩ := List.mem_map.mp hmem
    have := h.1.1
    rw [Bool.not_eq_eq_eq_not, Bool.not_true, List.any_eq_false] at this
    have h3 := this e2 he2
    rw [hq] at h3
    simp at h3

theorem assoc_unique {κ α : Type} {l : List (κ × α)} {k : κ} {v1 v2 : α}
    (hnd : (l.map (fun e => e.1)).Nodup) (h1 : (k, v1) ∈ l) (h2 : (k, v2) ∈ l) :
    v1 = v2 := by
  induction l with
  | nil => cases h1
  | cons e rest ih =>
    rw [List.map_cons, List.nodup_cons] at hnd
    rcases List.mem_cons.mp h1 with ha | ha <;> rcases List.mem_cons.mp h2 with hb | hb
    · injection ha.trans hb.symm
    · exfalso
      exact hnd.1 (ha ▸ List.mem_map_of_mem (fun e => e.1) hb)
    · exfalso
      exact hnd.1 (hb ▸ List.mem_map_of_mem (fun e => e.1) ha)
    · exact ih hnd.2 ha hb

theorem mem_of_nodup_lookup {es : Entries} {n : String} {o : Obj} {m : Nat}
    (hnd : (es.map (fun e => e.1)).Nodup) (h : (n, o, m) ∈ es) :
    lookupName es n = some (o, m) := by
  induction es with
  | nil => cases h
  | cons e rest ih =>
    obtain ⟨n2, e2⟩ := e
    rw [List.map_cons, List.nodup_cons] at hnd
    rcases List.mem_cons.mp h with h1 | h2
    · injection h1 with ha hb
      subst ha
      rw [lookupName_cons, if_pos (by simp)]
      rw [hb]
    · have hne : n2 ≠ n := by
        intro hq
        subst hq
        exact hnd.1 (List.mem_map_of_mem (fun e => e.1) h2)
      rw [lookupName_cons, if_neg (by simp [hne])]
      exact ih hnd.2 h2

theorem builder_empty_of_lookups {b : Builder}
    (h : ∀ x, lookupName b x = none) : b = [] := by
  match b with
  | [] => rfl
  | (n, e) :: rest =>
    exfalso
    have := h n
    rw [lookupName_cons, if_pos (by simp)] at this
    cases this

theorem applyFileEdits_allnone_none {fs : List (String × EditVal)}
    (hv : ∀ e ∈ fs, e.2 = (none : EditVal)) {x : String}
    (hx : x ∈ fs.map (fun e => e.1)) (b : Builder) :
    lookupName (applyFileEdits b fs) x = none := by
  induction fs generalizing b with
  | nil => simp at hx
  | cons e rest ih =>
    obtain ⟨n, v⟩ := e
    have hvn : v = none := hv (n, v) (List.mem_cons_self _ _)
    subst hvn
    rw [applyFileEdits_cons]
    simp only []
    by_cases hxr : x ∈ rest.map (fun e => e.1)
    · exact ih (fun e he => hv e (List.mem_cons_of_mem _ he)) hxr _
    · have hxn : x = n := by
        rw [List.map_cons] at hx
        rcases List.mem_cons.mp hx with h1 | h1
        · exact h1
        · exact absurd h1 hxr
      subst hxn
      rw [lookup_applyFileEdits_other
        (fun e he hq => hxr (by rw [← hq]; exact List.mem_map_of_mem (fun e2 => e2.1) he)) _]
      exact lookup_remove_self _ _

theorem upsert_self_mem {κ α : Type} [BEq κ] [LawfulBEq κ] (l : List (κ × α)) (k : κ)
    (v : α) : (k, v) ∈ upsert l k v := by
  induction l with
  | nil => simp [upsert]
  | cons e rest ih =>
    obtain ⟨k2, v2⟩ := e
    rw [upsert]
    split
    · exact List.mem_cons_self _ _
    · exact List.mem_cons_of_mem _ ih

theorem upsert_mem_other {κ α : Type} [BEq κ] [LawfulBEq κ] {l : List (κ × α)}
    {k k2 : κ} {v v2 : α} (h : k2 ≠ k) (hm : (k2, v2) ∈ l) :
    (k2, v2) ∈ upsert l k v := by
  induction l with
  | nil => cases hm
  | cons e rest ih =>
    obtain ⟨k3, v3⟩ := e
    rw [upsert]
    split
    · rename_i he
      have hk3 : k3 = k := by simpa using he
      rcases List.mem_cons.mp hm with h1 | h1
      · exfalso
        injection h1 with ha hb
        exact h (ha.trans hk3)
      · exact List.mem_cons_of_mem _ h1
    · rcases List.mem_cons.mp hm with h1 | h1
      · exact h1 ▸ List.mem_cons_self _ _
      · exact List.mem_cons_of_mem _ (ih h1)

/-- Value-consistency of an edit batch: any two edits at the same path carry
the same value.  Batches coming from a Rust `HashMap` have unique keys, and
batches built by resolving paths in a fixed tree are value-consistent even
with repeated paths. -/
def editsConsistent (es : Edits) : Prop :=
  ∀ p v1 v2, (p, v1) ∈ es → (p, v2) ∈ es → v1 = v2

theorem editsConsistent_tail {e : Rpath × EditVal} {rest : Edits}
    (h : editsConsistent (e :: rest)) : editsConsistent rest :=
  fun p v1 v2 h1 h2 =>
    h p v1 v2 (List.mem_cons_of_mem _ h1) (List.mem_cons_of_mem _ h2)

theorem splitEdits_file_complete {es : Edits} (hc : editsConsistent es) {f : String}
    {v : EditVal} (h : ([f], v) ∈ es) : (f, v) ∈ (splitEdits es).2.1 := by
  induction es with
  | nil => cases h
  | cons e rest ih =>
    obtain ⟨p0, v0⟩ := e
    have hcr := editsConsistent_tail hc
    match p0 with
    | [] =>
      simp only [splitEdits]
      rcases List.mem_cons.mp h with h1 | h1
      · exfalso
        injection h1 with ha hb
        cases ha
      · exact ih hcr h1
    | [f0] =>
      simp only [splitEdits]
      rcases List.mem_cons.mp h with h1 | h1
      · injection h1 with ha hb
        injection ha with ha1 ha2
        subst ha1
        subst hb
        exact upsert_self_mem _ _ _
      · by_cases hf : f = f0
        · subst hf
          have hv : v = v0 :=
            hc [f] v v0 (List.mem_cons_of_mem _ h1) (List.mem_cons_self _ _)
          subst hv
          exact upsert_self_mem _ _ _
        · exact upsert_mem_other hf (ih hcr h1)
    | f0 :: g0 :: r0 =>
      simp only [splitEdits]
      rcases List.mem_cons.mp h with h1 | h1
      · exfalso
        injection h1 with ha hb
        injection ha with ha1 ha2
        cases ha2
      · exact ih hcr h1

theorem upsertGroup_self (ds : List (String × Edits)) (f : String) (r : Rpath)
    (v : EditVal) : ∃ g, (f, g) ∈ upsertGroup ds f r v ∧ (r, v) ∈ g := by
  induction ds with
  | nil => exact ⟨[(r, v)], by simp [upsertGroup], by simp⟩
  | cons e rest ih =>
    obtain ⟨d1, g1⟩ := e
    rw [upsertGroup]
    split
    · exact ⟨upsert g1 r v, List.mem_cons_self _ _, upsert_self_mem _ _ _⟩
    · obtain ⟨g, hg, hr⟩ := ih
      exact ⟨g, List.mem_cons_of_mem _ hg, hr⟩

theorem upsertGroup_mem_other {ds : List (String × Edits)} {f d : String} {r : Rpath}
    {v : EditVal} {g : Edits} (h : d ≠ f) (hm : (d, g) ∈ ds) :
    (d, g) ∈ upsertGroup ds f r v := by
  induction ds with
  | nil => cases hm
  | cons e rest ih =>
    obtain ⟨d1, g1⟩ := e
    rw [upsertGroup]
    split
    · rename_i he
      have hd1 : d1 = f := by simpa using he
      rcases List.mem_cons.mp hm with h1 | h1
      · exfalso
        injection h1 with ha hb
        exact h (ha.trans hd1)
      · exact List.mem_cons_of_mem _ h1
    · rcases List.mem_cons.mp hm with h1 | h1
      · exact h1 ▸ List.mem_cons_self _ _
      · exact List.mem_cons_of_mem _ (ih h1)

theorem upsertGroup_mem_of_mem {ds : List (String × Edits)} {f : String} {g : Edits}
    (hnd : (ds.map (fun e => e.1)).Nodup) (hm : (f, g) ∈ ds) (r : Rpath) (v : EditVal) :
    (f, upsert g r v) ∈ upsertGroup ds f r v := by
  induction ds with
  | nil => cases hm
  | cons e rest ih =>
    obtain ⟨d1, g1⟩ := e
    rw [List.map_cons, List.nodup_cons] at hnd
    rw [upsertGroup]
    split
    · rename_i he
      have hd1 : d1 = f := by simpa using he
      subst hd1
      rcases List.mem_cons.mp hm with h1 | h1
      · injection h1 with ha hb
        subst hb
        exact List.mem_cons_self _ _
      · exfalso
        exact hnd.1 (List.mem_map_of_mem (fun e => e.1) h1)
    · rename_i he
      have hd1 : d1 ≠ f := by simpa using he
      rcases List.mem_cons.mp hm with h1 | h1
      · exfalso
        injection h1 with ha hb
        exact hd1 ha.symm
      · exact List.mem_cons_of_mem _ (ih hnd.2 h1)

theorem upsertGroup_mem_elim {ds : List (String × Edits)} {f d : String} {r : Rpath}
    {v : EditVal} {g : Edits} (h : (d, g) ∈ upsertGroup ds f r v) :
    (d, g) ∈ ds ∨
      (d = f ∧ ∃ g0, g = upsert g0 r v ∧ ((f, g0) ∈ ds ∨ g0 = [])) := by
  induction ds with
  | nil =>
    simp only [upsertGroup, List.mem_singleton] at h
    injection h with ha hb
    exact Or.inr ⟨ha, [], by simpa [upsert] using hb, Or.inr rfl⟩
  | cons e rest ih =>
    obtain ⟨d1, g1⟩ := e
    rw [upsertGroup] at h
    split at h
    · rename_i he
      have hd1 : d1 = f := by simpa using he
      subst hd1
      rcases List.mem_cons.mp h with h1 | h1
      · injection h1 with ha hb
        exact Or.inr ⟨ha, g1, hb, Or.inl (List.mem_cons_self _ _)⟩
      · exact Or.inl (List.mem_cons_of_mem _ h1)
    · rcases List.mem_cons.mp h with h1 | h1
      · exact Or.inl (h1 ▸ List.mem_cons_self _ _)
      · rcases ih h1 with h2 | ⟨ha, g0, hb, hc2⟩
        · exact Or.inl (List.mem_cons_of_mem _ h2)
        · rcases hc2 with hc2 | hc2
          · exact Or.inr ⟨ha, g0, hb, Or.inl (List.mem_cons_of_mem _ hc2)⟩
          · exact Or.inr ⟨ha, g0, hb, Or.inr hc2⟩

theorem splitEdits_dir_sound (es : Edits) :
    ∀ d g r v, (d, g) ∈ (splitEdits es).2.2 → (r, v) ∈ g → (d :: r, v) ∈ es := by
  induction es with
  | nil => intro d g r v hg; cases hg
  | cons e rest ih =>
    obtain ⟨p0, v0⟩ := e
    intro d g r v hg hr
    match p0 with
    | [] =>
      simp only [splitEdits] at hg
      exact List.mem_cons_of_mem _ (ih d g r v hg hr)
    | [f0] =>
      simp only [splitEdits] at hg
      exact List.mem_cons_of_mem _ (ih d g r v hg hr)
    | f0 :: g0 :: r0 =>
      simp only [splitEdits] at hg
      rcases upsertGroup_mem_elim hg with h1 | ⟨ha, g2, hb, hc2⟩
      · exact List.mem_cons_of_mem _ (ih d g r v h1 hr)
      · subst ha
        subst hb
        rcases upsert_mem hr with h3 | h3
        · injection h3 with h4 h5
          subst h4
          subst h5
          exact List.mem_cons_self _ _
        · rcases hc2 with hc2 | hc2
          · exact List.mem_cons_of_mem _ (ih d g2 r v hc2 h3)
          · subst hc2
            cases h3

theorem splitEdits_dir_exists (es : Edits) :
    ∀ d r v, (d :: r, v) ∈ es → r ≠ [] → ∃ g, (d, g) ∈ (splitEdits es).2.2 := by
  induction es with
  | nil => intro d r v h; cases h
  | cons e rest ih =>
    obtain ⟨p0, v0⟩ := e
    intro d r v h hr
    match p0 with
    | [] =>
      simp only [splitEdits]
      rcases List.mem_cons.mp h with h1 | h1
      · exfalso
        injection h1 with ha hb
        cases ha
      · exact ih d r v h1 hr
    | [f0] =>
      simp only [splitEdits]
      rcases List.mem_cons.mp h with h1 | h1
      · exfalso
        injection h1 with ha hb
        injection ha with ha1 ha2
        exact hr ha2
      · exact ih d r v h1 hr
    | f0 :: g0 :: r0 =>
      simp only [splitEdits]
      by_cases hd : d = f0
      · subst hd
        obtain ⟨g, hg, _⟩ := upsertGroup_self (splitEdits rest).2.2 d (g0 :: r0) v0
        exact ⟨g, hg⟩
      · rcases List.mem_cons.mp h with h1 | h1
        · exfalso
          injection h1 with ha hb
          injection ha with ha1 ha2
          exact hd ha1
        · obtain ⟨g, hg⟩ := ih d r v h1 hr
          exact ⟨g, upsertGroup_mem_other hd hg⟩

theorem splitEdits_dir_complete (es : Edits) (hc : editsConsistent es) :
    ∀ d r v, (d :: r, v) ∈ es → r ≠ [] →
      ∃ g, (d, g) ∈ (splitEdits es).2.2 ∧ (r, v) ∈ g := by
  induction es with
  | nil => intro d r v h; cases h
  | cons e rest ih =>
    obtain ⟨p0, v0⟩ := e
    have hcr := editsConsistent_tail hc
    intro d r v h hr
    match p0 with
    | [] =>
      simp only [splitEdits]
      rcases List.mem_cons.mp h with h1 | h1
      · exfalso
        injection h1 with ha hb
        cases ha
      · exact ih hcr d r v h1 hr
    | [f0] =>
      simp only [splitEdits]
      rcases List.mem_cons.mp h with h1 | h1
      · exfalso
        injection h1 with ha hb
        injection ha with ha1 ha2
        exact hr ha2
      · exact ih hcr d r v h1 hr
    | f0 :: g0 :: r0 =>
      simp only [splitEdits]
      rcases List.mem_cons.mp h with h1 | h1
      · injection h1 with ha hb
        injection ha with ha1 ha2
        subst ha1
        obtain ⟨g, hg, hrg⟩ := upsertGroup_self (splitEdits rest).2.2 d (g0 :: r0) v0
        refine ⟨g, hg, ?_⟩
        rw [ha2, hb]
        exact hrg
      · obtain ⟨g, hg, hrg⟩ := ih hcr d r v h1 hr
        by_cases hd : d = f0
        · subst hd
          refine ⟨upsert g (g0 :: r0) v0, upsertGroup_mem_of_mem (splitEdits_groups_nodup rest) hg _ _, ?_⟩
          by_cases hrr : r = g0 :: r0
          · have hv : v = v0 :=
              hc (d :: r) v v0 (List.mem_cons_of_mem _ h1)
                (by rw [hrr]; exact List.mem_cons_self _ _)
            rw [hrr, hv]
            exact upsert_self_mem _ _ _
          · exact upsert_mem_other hrr hrg
        · exact ⟨g, upsertGroup_mem_other hd hg, hrg⟩

theorem upsert_ne_nil {κ α : Type} [BEq κ] (l : List (κ × α)) (k : κ) (v : α) :
    upsert l k v ≠ [] := by
  match l with
  | [] => simp [upsert]
  | (k2, v2) :: rest =>
    rw [upsert]
    split <;> simp

theorem splitEdits_group_nonempty {es : Edits} {d : String} {g : Edits}
    (h : (d, g) ∈ (splitEdits es).2.2) : g ≠ [] := by
  induction es with
  | nil => cases h
  | cons e rest ih =>
    obtain ⟨p0, v0⟩ := e
    match p0 with
    | [] => exact ih (by simpa [splitEdits] using h)
    | [f0] => exact ih (by simpa [splitEdits] using h)
    | f0 :: g0 :: r0 =>
      simp only [splitEdits] at h
      rcases upsertGroup_mem_elim h with h1 | ⟨ha, g2, hb, hc2⟩
      · exact ih h1
      · subst hb
        exact upsert_ne_nil _ _ _

theorem entry_unique {S : Entries} (hnodup : (S.map (fun e => e.1)).Nodup)
    {x : String} {o1 o2 : Obj} {m1 m2 : Nat} (h1 : (x, o1, m1) ∈ S)
    (h2 : (x, o2, m2) ∈ S) : o1 = o2 ∧ m1 = m2 := by
  have l1 := mem_of_nodup_lookup hnodup h1
  have l2 := mem_of_nodup_lookup hnodup h2
  rw [l1] at l2
  injection l2 with l3
  injection l3 with l4 l5
  exact ⟨l4, l5⟩

theorem hydrate_leaf_deletions_empty :
    ∀ (k : Nat) (S : Entries), sizeOf S ≤ k →
      wfEntries S = true → noEmptyEntries S = true →
      ∀ G : Edits, (∀ pv ∈ G, pv.2 = (none : EditVal)) →
        (∀ p, p ∈ G.map (fun e => e.1) ↔ p ∈ leafPaths S) →
        (hydrate_tree (some S) G).2 = [] := by
  intro k
  induction k with
  | zero =>
    intro S hsz
    have := entries_size_pos S
    omega
  | succ k ih =>
    intro S hsz hwf hne G hval hkeys
    have hcons : editsConsistent G := fun p v1 v2 h1 h2 =>
      (hval (p, v1) h1).trans (hval (p, v2) h2).symm
    have hnodup := wfEntries_nodupKeys hwf
    have hfsval : ∀ e ∈ (splitEdits G).2.1, e.2 = (none : EditVal) := by
      intro e he
      obtain ⟨f, v⟩ := e
      exact hval _ (splitEdits_file_mem he)
    apply builder_empty_of_lookups
    intro x
    by_cases hgrp : ∃ g, (x, g) ∈ (splitEdits G).2.2
    · obtain ⟨g, hg⟩ := hgrp
      obtain ⟨⟨r0, v0⟩, hr0⟩ := List.exists_mem_of_ne_nil g (splitEdits_group_nonempty hg)
      have hkey0 : (x :: r0) ∈ G.map (fun e => e.1) :=
        List.mem_map_of_mem _ (splitEdits_dir_sound G x g r0 v0 hg hr0)
      have hleaf0 := (hkeys _).mp hkey0
      obtain ⟨o, m, hmemS, htail⟩ := leafPaths_mem.mp hleaf0
      have hr0ne : r0 ≠ [] := splitEdits_groupKeys G x g hg r0 v0 hr0
      rcases leafTail_cases o m with hlt | ⟨hk, sub, rfl, hlt⟩
      · rw [hlt] at htail
        rw [List.mem_singleton] at htail
        exact absurd htail hr0ne
      rw [hlt] at htail
      have hxfs : ∀ e ∈ (splitEdits G).2.1, e.1 ≠ x := by
        intro e he hq
        obtain ⟨f, v⟩ := e
        have hq2 : f = x := hq
        subst hq2
        have hkey1 : [f] ∈ G.map (fun e => e.1) :=
          List.mem_map_of_mem _ (splitEdits_file_mem he)
        obtain ⟨o2, m2, hmem2, htail2⟩ := leafPaths_mem.mp ((hkeys _).mp hkey1)
        obtain ⟨ho2, hm2⟩ := entry_unique hnodup hmem2 hmemS
        subst ho2
        subst hm2
        rw [hlt] at htail2
        exact nil_not_mem_leafPaths sub htail2
      have hbx : lookupName
          (applyFileEdits ((some S : Option Entries).getD []) (splitEdits G).2.1) x =
          some (Obj.tree sub, m) := by
        rw [lookup_applyFileEdits_other hxfs]
        exact mem_of_nodup_lookup hnodup hmemS
      have hdb : dirBase
          (applyFileEdits ((some S : Option Entries).getD []) (splitEdits G).2.1) x =
          some sub := by
        rw [dirBase, hbx]
        simp only [hk, if_true]
      have hszsub : sizeOf sub ≤ k := by
        have h3 := List.sizeOf_lt_of_mem hmemS
        simp only [Prod.mk.sizeOf_spec, Obj.tree.sizeOf_spec] at h3
        omega
      obtain ⟨hsubne, hnesub⟩ := noEmptyEntries_mem hne hmemS hk
      have hwsub : wfEntries sub = true := by
        obtain ⟨sub2, hs2, hw2⟩ := wfEntries_mem hwf hmemS hk
        injection hs2 with hs3
        exact hs3 ▸ hw2
      have hgval : ∀ pv ∈ g, pv.2 = (none : EditVal) := by
        intro pv hpv
        obtain ⟨r, v⟩ := pv
        exact hval (x :: r, v) (splitEdits_dir_sound G x g r v hg hpv)
      have hgkeys : ∀ p, p ∈ g.map (fun e => e.1) ↔ p ∈ leafPaths sub := by
        intro p
        constructor
        · intro hp
          obtain ⟨⟨r, v⟩, hrv, hq⟩ := List.mem_map.mp hp
          have hq2 : r = p := hq
          subst hq2
          have hkey1 : (x :: r) ∈ G.map (fun e => e.1) :=
            List.mem_map_of_mem _ (splitEdits_dir_sound G x g r v hg hrv)
          obtain ⟨o2, m2, hmem2, htail2⟩ := leafPaths_mem.mp ((hkeys _).mp hkey1)
          obtain ⟨ho2, hm2⟩ := entry_unique hnodup hmem2 hmemS
          subst ho2
          subst hm2
          rwa [hlt] at htail2
        · intro hp
          have hpne : p ≠ [] := by
            intro hq
            subst hq
            exact nil_not_mem_leafPaths sub hp
          have hkey1 : (x :: p) ∈ G.map (fun e => e.1) := by
            rw [hkeys]
            exact leafPaths_mem.mpr ⟨Obj.tree sub, m, hmemS, by rwa [hlt]⟩
          obtain ⟨⟨p2, v2⟩, hpv2, hq2⟩ := List.mem_map.mp hkey1
          have hp2 : p2 = x :: p := hq2
          subst hp2
          obtain ⟨g2, hg2, hpg2⟩ := splitEdits_dir_complete G hcons x p v2 hpv2 hpne
          have hgg : g2 = g := assoc_unique (splitEdits_groups_nodup G) hg2 hg
          subst hgg
          exact List.mem_map_of_mem _ hpg2
      have hsub := ih sub hszsub hwsub hnesub g hgval hgkeys
      rw [hydrate_dir_group (some S) G x g hg, hdb, hsub]
      rfl
    · rw [hydrate_tree_eq]
      simp only []
      have hnm : ∀ e ∈ (splitEdits G).2.2, e.1 ≠ x := by
        intro e he hq
        obtain ⟨d2, g2⟩ := e
        have hq2 : d2 = x := hq
        subst hq2
        exact hgrp ⟨g2, he⟩
      rw [processDirs_lookup_not_mem hnm]
      by_cases hxf : x ∈ ((splitEdits G).2.1).map (fun e => e.1)
      · exact applyFileEdits_allnone_none hfsval hxf _
      · rw [lookup_applyFileEdits_other
          (fun e he hq => hxf (by rw [← hq]; exact List.mem_map_of_mem (fun e2 => e2.1) he))]
        cases hS : lookupName ((some S : Option Entries).getD []) x with
        | none => rfl
        | some om =>
          obtain ⟨o, m⟩ := om
          exfalso
          have hmem := lookupName_mem hS
          rcases leafTail_cases o m with hlt | ⟨hk, sub, ho, hlt⟩
          · have hkey1 : [x] ∈ G.map (fun e => e.1) := by
              rw [hkeys]
              exact leafPaths_mem.mpr ⟨o, m, hmem, by rw [hlt]; simp⟩
            obtain ⟨⟨p2, v2⟩, hpv2, hq2⟩ := List.mem_map.mp hkey1
            have hp2 : p2 = [x] := hq2
            subst hp2
            exact hxf (List.mem_map_of_mem (fun e => e.1)
              (splitEdits_file_complete hcons hpv2))
          · subst ho
            obtain ⟨hsubne, hnesub⟩ := noEmptyEntries_mem hne hmem hk
            have hlp := leafPaths_ne_nil (sizeOf sub) sub le_rfl hnesub hsubne
            obtain ⟨q, hq⟩ := List.exists_mem_of_ne_nil _ hlp
            have hqne : q ≠ [] := by
              intro hq2
              subst hq2
              exact nil_not_mem_leafPaths sub hq
            have hkey1 : (x :: q) ∈ G.map (fun e => e.1) := by
              rw [hkeys]
              exact leafPaths_mem.mpr ⟨Obj.tree sub, m, hmem, by rwa [hlt]⟩
            obtain ⟨⟨p2, v2⟩, hpv2, hq2⟩ := List.mem_map.mp hkey1
            have hp2 : p2 = x :: q := hq2
            subst hp2
            obtain ⟨g2, hg2⟩ := splitEdits_dir_exists G x q v2 hpv2 hqne
            exact hgrp ⟨g2, hg2⟩

theorem hydrate_dir_entry_never_empty {t : Option Entries} {es : Edits} {d : String}
    {o : Obj} {m : Nat} {r : Rpath} {v : EditVal}
    (hmem : (d :: r, v) ∈ es) (hr : r ≠ [])
    (hlook : lookupName (hydrate_tree t es).2 d = some (o, m)) :
    ∃ sub, o = Obj.tree sub ∧ sub ≠ [] ∧ m = treeMode := by
  obtain ⟨g, hg⟩ := splitEdits_dir_exists es d r v hmem hr
  rw [hydrate_dir_group t es d g hg] at hlook
  split at hlook
  · cases hlook
  · rename_i hE
    injection hlook with h1
    injection h1 with h2 h3
    refine ⟨(hydrate_tree
      (dirBase (applyFileEdits (t.getD []) (splitEdits es).2.1) d) g).2, h2.symm, ?_, h3.symm⟩
    intro hnil
    exact hE (by rw [hnil]; rfl)

theorem hydrate_delete_subdir_removes {es0 S : Entries} {d : String} {m : Nat}
    {G : Edits}
    (hwf : wfEntries S = true) (hne : noEmptyEntries S = true) (hS : S ≠ [])
    (hlook : lookupName es0 d = some (Obj.tree S, m)) (hk : entryKindIsTree m = true)
    (hval : ∀ pv ∈ G, pv.2 = (none : EditVal))
    (hkeys : ∀ p, p ∈ G.map (fun e => e.1) ↔ ∃ q ∈ leafPaths S, p = d :: q) :
    lookupName (hydrate_tree (some es0) G).2 d = none := by
  have hcons : editsConsistent G := fun p v1 v2 h1 h2 =>
    (hval (p, v1) h1).trans (hval (p, v2) h2).symm
  have hfs : (splitEdits G).2.1 = [] := by
    rw [List.eq_nil_iff_forall_not_mem]
    intro e he
    obtain ⟨f, v⟩ := e
    have hkey : [f] ∈ G.map (fun e => e.1) :=
      List.mem_map_of_mem _ (splitEdits_file_mem he)
    obtain ⟨q, hq, hqe⟩ := (hkeys _).mp hkey
    injection hqe with h1 h2
    subst h2
    exact nil_not_mem_leafPaths S hq
  obtain ⟨q0, hq0⟩ := List.exists_mem_of_ne_nil _ (leafPaths_ne_nil (sizeOf S) S le_rfl hne hS)
  have hq0ne : q0 ≠ [] := by
    intro h
    subst h
    exact nil_not_mem_leafPaths S hq0
  have hkey0 : (d :: q0) ∈ G.map (fun e => e.1) := (hkeys _).mpr ⟨q0, hq0, rfl⟩
  obtain ⟨⟨p2, v2⟩, hpv2, hq2⟩ := List.mem_map.mp hkey0
  have hp2 : p2 = d :: q0 := hq2
  subst hp2
  obtain ⟨g, hg⟩ := splitEdits_dir_exists G d q0 v2 hpv2 hq0ne
  rw [hydrate_dir_group (some es0) G d g hg, hfs]
  have hb1 : applyFileEdits ((some es0 : Option Entries).getD []) [] = es0 := rfl
  rw [hb1]
  have hdb : dirBase es0 d = some S := by
    rw [dirBase, hlook]
    simp only [hk, if_true]
  rw [hdb]
  have hgval : ∀ pv ∈ g, pv.2 = (none : EditVal) := by
    intro pv hpv
    obtain ⟨r, v⟩ := pv
    exact hval (d :: r, v) (splitEdits_dir_sound G d g r v hg hpv)
  have hgkeys : ∀ p, p ∈ g.map (fun e => e.1) ↔ p ∈ leafPaths S := by
    intro p
    constructor
    · intro hp
      obtain ⟨⟨r, v⟩, hrv, hq⟩ := List.mem_map.mp hp
      have hq3 : r = p := hq
      subst hq3
      have hkey : (d :: r) ∈ G.map (fun e => e.1) :=
        List.mem_map_of_mem _ (splitEdits_dir_sound G d g r v hg hrv)
      obtain ⟨q, hq4, hq5⟩ := (hkeys _).mp hkey
      injection hq5 with h1 h2
      subst h2
      exact hq4
    · intro hp
      have hpne : p ≠ [] := by
        intro h
        subst h
        exact nil_not_mem_leafPaths S hp
      have hkey : (d :: p) ∈ G.map (fun e => e.1) := (hkeys _).mpr ⟨p, hp, rfl⟩
      obtain ⟨⟨p3, v3⟩, hpv3, hq3⟩ := List.mem_map.mp hkey
      have hp3 : p3 = d :: p := hq3
      subst hp3
      obtain ⟨g2, hg2, hpg2⟩ := splitEdits_dir_complete G hcons d p v3 hpv3 hpne
      have hgg : g2 = g := assoc_unique (splitEdits_groups_nodup G) hg2 hg
      subst hgg
      exact List.mem_map_of_mem _ hpg2
  rw [hydrate_leaf_deletions_empty (sizeOf S) S le_rfl hwf hne g hgval hgkeys]
  rfl

/-- Claim C3 (amended): an edit batch that deletes every leaf path under a
subdirectory removes that subdirectory's entry from the result entirely; and
an entry written back by hydration's recursive directory handling never
points at an empty subtree (when some edit descends into a directory name,
the result either lacks that entry or carries a nonempty subtree of mode
`Tree`).  The original claim's stronger clause — that no hydrated tree ever
contains an entry pointing at an empty subtree — is refuted separately: a
caller can insert an empty-tree OID directly via a single-segment edit (or
inherit one from the base). -/
theorem hydrate_directory_collapse :
    (∀ (es0 S : Entries) (d : String) (m : Nat) (G : Edits),
        wfEntries S = true → noEmptyEntries S = true → S ≠ [] →
        lookupName es0 d = some (Obj.tree S, m) → entryKindIsTree m = true →
        (∀ pv ∈ G, pv.2 = (none : EditVal)) →
        (∀ p, p ∈ G.map (fun e => e.1) ↔ ∃ q ∈ leafPaths S, p = d :: q) →
        lookupName (hydrate_tree (some es0) G).2 d = none) ∧
    (∀ (t : Option Entries) (es : Edits) (d : String) (o : Obj) (m : Nat)
        (r : Rpath) (v : EditVal),
        (d :: r, v) ∈ es → r ≠ [] →
        lookupName (hydrate_tree t es).2 d = some (o, m) →
        ∃ sub, o = Obj.tree sub ∧ sub ≠ [] ∧ m = treeMode) :=
  ⟨fun _ _ _ _ _ hwf hne hS hlook hk hval hkeys =>
    hydrate_delete_subdir_removes hwf hne hS hlook hk hval hkeys,
   fun _ _ _ _ _ _ _ hmem hr hlook => hydrate_dir_entry_never_empty hmem hr hlook⟩

/-! ### Dehydration: requested-path characterization -/

/-- Boolean path-prefix test: `pathPre p q` holds when `p` is an initial
segment of `q`. -/
def pathPre : Rpath → Rpath → Bool
  | [], _ => true
  | _ :: _, [] => false
  | a :: p, b :: q => a == b && pathPre p q

theorem pathPre_nil (q : Rpath) : pathPre [] q = true := by
  cases q <;> rfl

theorem pathPre_refl (p : Rpath) : pathPre p p = true := by
  induction p with
  | nil => rfl
  | cons a p ih => simp [pathPre, ih]

theorem pathPre_cons (a : String) (p q : Rpath) :
    pathPre (a :: p) (a :: q) = pathPre p q := by
  simp [pathPre]

theorem pathPre_single (a : String) (q : Rpath) :
    pathPre [a] (a :: q) = true := by
  simp [pathPre, pathPre_nil]

theorem upsert_key_mem {κ α : Type} [BEq κ] [LawfulBEq κ] {l : List (κ × α)} {k : κ}
    {v : α} {x : κ} (h : x ∈ (upsert l k v).map (fun e => e.1)) :
    x ∈ l.map (fun e => e.1) ∨ x = k := by
  induction l with
  | nil => simpa [upsert] using h
  | cons e rest ih =>
    obtain ⟨k2, v2⟩ := e
    rw [upsert] at h
    split at h
    · rename_i he
      have hk2 : k2 = k := by simpa using he
      subst hk2
      simp only [List.map_cons, List.mem_cons] at h ⊢
      tauto
    · simp only [List.map_cons, List.mem_cons] at h ⊢
      rcases h with h1 | h2
      · tauto
      · rcases ih h2 with h3 | h3 <;> tauto

theorem upsert_nodup {κ α : Type} [BEq κ] [LawfulBEq κ] {l : List (κ × α)} {k : κ}
    {v : α} (h : (l.map (fun e => e.1)).Nodup) :
    ((upsert l k v).map (fun e => e.1)).Nodup := by
  induction l with
  | nil => simp [upsert]
  | cons e rest ih =>
    obtain ⟨k2, v2⟩ := e
    rw [List.map_cons, List.nodup_cons] at h
    rw [upsert]
    split
    · rename_i he
      have hk2 : k2 = k := by simpa using he
      subst hk2
      rw [List.map_cons, List.nodup_cons]
      exact h
    · rename_i he
      have hk2 : k2 ≠ k := by simpa using he
      rw [List.map_cons, List.nodup_cons]
      refine ⟨?_, ih h.2⟩
      intro hmem
      rcases upsert_key_mem hmem with h1 | h1
      · exact h.1 h1
      · exact hk2 h1

/-- The file-edit bucket of a split batch has unique names. -/
theorem splitEdits_files_nodup (es : Edits) :
    (((splitEdits es).2.1).map (fun e => e.1)).Nodup := by
  induction es with
  | nil => simp [splitEdits]
  | cons e rest ih =>
    obtain ⟨p, v⟩ := e
    match p with
    | [] => simpa [splitEdits] using ih
    | [f] =>
      simp only [splitEdits]
      exact upsert_nodup ih
    | f :: g :: r => simpa [splitEdits] using ih

theorem lookup_applyFileEdits_some {fs : List (String × EditVal)}
    (hnodup : (fs.map (fun e => e.1)).Nodup) {n : String} {o : Obj} {m : Nat}
    (h : (n, some (o, m)) ∈ fs) (b : Builder) :
    lookupName (applyFileEdits b fs) n = some (o, m) := by
  induction fs generalizing b with
  | nil => cases h
  | cons e rest ih =>
    obtain ⟨n0, v0⟩ := e
    rw [List.map_cons, List.nodup_cons] at hnodup
    rw [applyFileEdits_cons]
    rcases List.mem_cons.mp h with h1 | h1
    · injection h1 with ha hb
      subst ha
      subst hb
      have hnm : ∀ e2 ∈ rest, e2.1 ≠ n := by
        intro e2 he2 hq
        exact hnodup.1 (hq ▸ List.mem_map_of_mem (fun e3 => e3.1) he2)
      rw [lookup_applyFileEdits_other hnm]
      exact lookup_builderInsert_self b n o m
    · exact ih hnodup.2 h1 _

theorem lookup_applyFileEdits_none {fs : List (String × EditVal)}
    (hnodup : (fs.map (fun e => e.1)).Nodup) {n : String}
    (h : (n, (none : EditVal)) ∈ fs) (b : Builder) :
    lookupName (applyFileEdits b fs) n = none := by
  induction fs generalizing b with
  | nil => cases h
  | cons e rest ih =>
    obtain ⟨n0, v0⟩ := e
    rw [List.map_cons, List.nodup_cons] at hnodup
    rw [applyFileEdits_cons]
    rcases List.mem_cons.mp h with h1 | h1
    · injection h1 with ha hb
      subst ha
      subst hb
      have hnm : ∀ e2 ∈ rest, e2.1 ≠ n := by
        intro e2 he2 hq
        exact hnodup.1 (hq ▸ List.mem_map_of_mem (fun e3 => e3.1) he2)
      rw [lookup_applyFileEdits_other hnm]
      exact lookup_remove_self b n
    · exact ih hnodup.2 h1 _

/-- In a batch with no overlapping paths (no path a proper prefix of
another), a name bucketed as a dir group is never also a single-segment file
edit. -/
theorem splitEdits_disjoint {es : Edits}
    (hno : ∀ pv ∈ es, ∀ qw ∈ es, pathPre pv.1 qw.1 = true → pv.1 = qw.1)
    {d : String} {g : Edits} (hd : (d, g) ∈ (splitEdits es).2.2) :
    ∀ e ∈ (splitEdits es).2.1, e.1 ≠ d := by
  intro e he hq
  obtain ⟨f, v⟩ := e
  have hfd : f = d := hq
  subst hfd
  have h1 : ([f], v) ∈ es := splitEdits_file_mem he
  have hgne : g ≠ [] := splitEdits_group_nonempty hd
  obtain ⟨rw0, hr⟩ := List.exists_mem_of_ne_nil g hgne
  obtain ⟨r, w⟩ := rw0
  have h2 : (f :: r, w) ∈ es := splitEdits_dir_sound es f g r w hd hr
  have h3 : r ≠ [] := splitEdits_groupKeys es f g hd r w hr
  have h4 : pathPre [f] (f :: r) = true := pathPre_single f r
  have h5 := hno ([f], v) h1 (f :: r, w) h2 h4
  injection h5 with h6 h7
  exact h3 h7.symm

/-- Hydrating a nonoverlapping, value-consistent batch of nonempty paths from
no base tree: every edit path resolves in the result exactly to its edit
value, and every path resolving in the result is related by the prefix order
to some `Some`-valued edit path. -/
theorem hydrate_none_char :
    ∀ (W : Nat) (E : Edits), editsWeight E ≤ W →
      (∀ pv ∈ E, pv.1 ≠ ([] : Rpath)) → editsConsistent E →
      (∀ pv ∈ E, ∀ qw ∈ E, pathPre pv.1 qw.1 = true → pv.1 = qw.1) →
      (∀ pv ∈ E, lookupPath (hydrate_tree none E).2 pv.1 = pv.2) ∧
      (∀ q, lookupPath (hydrate_tree none E).2 q ≠ none →
        ∃ pv ∈ E, pv.2 ≠ (none : EditVal) ∧
          (pathPre pv.1 q = true ∨ pathPre q pv.1 = true)) := by
  intro W
  induction W with
  | zero =>
    intro E hW hne _ _
    have hE : E = [] := by
      match E with
      | [] => rfl
      | (p, v) :: rest =>
        exfalso
        have hp := hne (p, v) (List.mem_cons_self _ _)
        have hlen : 1 ≤ p.length := by
          cases p
          · exact absurd rfl hp
          · simp
        simp only [editsWeight] at hW
        omega
    subst hE
    constructor
    · intro pv hpv
      cases hpv
    · intro q hq
      exfalso
      apply hq
      have hR : (hydrate_tree none ([] : Edits)).2 = [] := by
        rw [hydrate_tree_eq]
        simp only [Option.getD_none, splitEdits, applyFileEdits, processDirs_nil]
      rw [hR]
      cases q with
      | nil => rfl
      | cons n r => exact lookupPath_cons_none r (lookupName_nil n)
  | succ W ih =>
    intro E hW hne hc hno
    have hfnodup := splitEdits_files_nodup E
    have hdnodup := splitEdits_groups_nodup E
    have hRform : (hydrate_tree none E).2 =
        (processDirs (applyFileEdits [] (splitEdits E).2.1) (splitEdits E).2.2).2 := by
      rw [hydrate_tree_eq]
      simp only [Option.getD_none]
    have hbase : ∀ d g, (d, g) ∈ (splitEdits E).2.2 →
        dirBase (applyFileEdits [] (splitEdits E).2.1) d = none := by
      intro d g hd
      have hlk : lookupName (applyFileEdits [] (splitEdits E).2.1) d = none := by
        rw [lookup_applyFileEdits_other (splitEdits_disjoint hno hd)]
        exact lookupName_nil d
      rw [dirBase, hlk]
    have hgrouplk : ∀ d g, (d, g) ∈ (splitEdits E).2.2 →
        lookupName (hydrate_tree none E).2 d =
          (if ((hydrate_tree none g).2).isEmpty then none
           else some (Obj.tree (hydrate_tree none g).2, treeMode)) := by
      intro d g hd
      rw [hRform]
      have h1 := processDirs_lookup_mem hdnodup hd (applyFileEdits [] (splitEdits E).2.1)
      rw [hbase d g hd] at h1
      exact h1
    have hIH : ∀ d g, (d, g) ∈ (splitEdits E).2.2 →
        (∀ pv ∈ g, lookupPath (hydrate_tree none g).2 pv.1 = pv.2) ∧
        (∀ q, lookupPath (hydrate_tree none g).2 q ≠ none →
          ∃ pv ∈ g, pv.2 ≠ (none : EditVal) ∧
            (pathPre pv.1 q = true ∨ pathPre q pv.1 = true)) := by
      intro d g hd
      have hwlt : editsWeight g < editsWeight E := splitEdits_group_weight hd
      refine ih g (by omega) ?_ ?_ ?_
      · intro rv hm
        exact splitEdits_groupKeys E d g hd rv.1 rv.2 hm
      · intro r v1 v2 m1 m2
        exact hc (d :: r) v1 v2 (splitEdits_dir_sound E d g r v1 hd m1)
          (splitEdits_dir_sound E d g r v2 hd m2)
      · intro rv hm qw hm2 hp
        have h1 := splitEdits_dir_sound E d g rv.1 rv.2 hd hm
        have h2 := splitEdits_dir_sound E d g qw.1 qw.2 hd hm2
        have h3 : pathPre (d :: rv.1) (d :: qw.1) = true := by
          rw [pathPre_cons]
          exact hp
        have h4 := hno (d :: rv.1, rv.2) h1 (d :: qw.1, qw.2) h2 h3
        injection h4
    constructor
    · -- every edit path resolves to its value
      intro pv hpv
      obtain ⟨p, v⟩ := pv
      cases p with
      | nil => exact absurd rfl (hne (([] : Rpath), v) hpv)
      | cons n r =>
        cases r with
        | nil =>
          have hf : (n, v) ∈ (splitEdits E).2.1 := splitEdits_file_complete hc hpv
          have hnd : ∀ e ∈ (splitEdits E).2.2, e.1 ≠ n := by
            intro e he hq
            obtain ⟨d0, g0⟩ := e
            have hd0 : d0 = n := hq
            subst hd0
            exact splitEdits_disjoint hno he (d0, v) hf rfl
          have hR : lookupName (hydrate_tree none E).2 n =
              lookupName (applyFileEdits [] (splitEdits E).2.1) n := by
            rw [hRform]
            exact processDirs_lookup_not_mem hnd _
          rw [lookupPath_single, hR]
          cases v with
          | none => exact lookup_applyFileEdits_none hfnodup hf []
          | some om =>
            obtain ⟨o, m⟩ := om
            exact lookup_applyFileEdits_some hfnodup hf []
        | cons x r2 =>
          obtain ⟨g, hd, hrg⟩ :=
            splitEdits_dir_complete E hc n (x :: r2) v hpv (List.cons_ne_nil x r2)
          obtain ⟨iha, ihb⟩ := hIH n g hd
          have hval : lookupPath (hydrate_tree none g).2 (x :: r2) = v :=
            iha (x :: r2, v) hrg
          have hRd := hgrouplk n g hd
          by_cases hE : ((hydrate_tree none g).2).isEmpty = true
          · have hH : (hydrate_tree none g).2 = [] := by
              cases hHH : (hydrate_tree none g).2
              · rfl
              · rw [hHH] at hE
                simp [List.isEmpty] at hE
            rw [hH, lookupPath_cons_none r2 (lookupName_nil x)] at hval
            rw [if_pos hE] at hRd
            rw [lookupPath_cons_none (x :: r2) hRd]
            exact hval
          · rw [if_neg hE] at hRd
            rw [lookupPath_cons_deep (List.cons_ne_nil x r2) hRd]
            have hk : entryKindIsTree treeMode = true := by decide
            rw [hk]
            simp only [if_pos]
            exact hval
    · -- every resolving path is prefix-related to a Some-valued edit path
      intro q hq
      cases q with
      | nil =>
        exfalso
        apply hq
        rfl
      | cons n r =>
        by_cases hgrp : ∃ g, (n, g) ∈ (splitEdits E).2.2
        · obtain ⟨g, hd⟩ := hgrp
          obtain ⟨iha, ihb⟩ := hIH n g hd
          have hRd := hgrouplk n g hd
          by_cases hE : ((hydrate_tree none g).2).isEmpty = true
          · exfalso
            apply hq
            rw [if_pos hE] at hRd
            exact lookupPath_cons_none r hRd
          · rw [if_neg hE] at hRd
            cases r with
            | nil =>
              -- the name itself resolves: find a surviving leaf inside the group
              cases hHH : (hydrate_tree none g).2 with
              | nil =>
                exfalso
                rw [hHH] at hE
                exact hE rfl
              | cons e t =>
                obtain ⟨x0, o0, m0⟩ := e
                have hlk : lookupPath (hydrate_tree none g).2 [x0] ≠ none := by
                  rw [lookupPath_single, hHH, lookupName_cons]
                  simp
                obtain ⟨pv, hm, hvne, hor⟩ := ihb [x0] hlk
                obtain ⟨p0, w0⟩ := pv
                refine ⟨(n :: p0, w0), splitEdits_dir_sound E n g p0 w0 hd hm, hvne, ?_⟩
                exact Or.inr (pathPre_single n p0)
            | cons x r2 =>
              have hdeep : lookupPath (hydrate_tree none E).2 (n :: x :: r2) =
                  lookupPath (hydrate_tree none g).2 (x :: r2) := by
                rw [lookupPath_cons_deep (List.cons_ne_nil x r2) hRd]
                have hk : entryKindIsTree treeMode = true := by decide
                rw [hk]
                simp only [if_pos]
              rw [hdeep] at hq
              obtain ⟨pv, hm, hvne, hor⟩ := ihb (x :: r2) hq
              obtain ⟨p0, w0⟩ := pv
              refine ⟨(n :: p0, w0), splitEdits_dir_sound E n g p0 w0 hd hm, hvne, ?_⟩
              rcases hor with h1 | h1
              · exact Or.inl (by rw [pathPre_cons]; exact h1)
              · exact Or.inr (by rw [pathPre_cons]; exact h1)
        · have hnd : ∀ e ∈ (splitEdits E).2.2, e.1 ≠ n := by
            intro e he hq2
            obtain ⟨d0, g0⟩ := e
            have hd0 : d0 = n := hq2
            subst hd0
            exact hgrp ⟨g0, he⟩
          have hR : lookupName (hydrate_tree none E).2 n =
              lookupName (applyFileEdits [] (splitEdits E).2.1) n := by
            rw [hRform]
            exact processDirs_lookup_not_mem hnd _
          have hnn : lookupName (hydrate_tree none E).2 n ≠ none := by
            intro h0
            exact hq (lookupPath_cons_none r h0)
          by_cases hk : ∀ e ∈ (splitEdits E).2.1, e.1 ≠ n
          · exfalso
            apply hnn
            rw [hR, lookup_applyFileEdits_other hk]
            exact lookupName_nil n
          · push_neg at hk
            obtain ⟨e, hmem, hq2⟩ := hk
            obtain ⟨n2, w⟩ := e
            have hn2 : n2 = n := hq2
            subst hn2
            cases w with
            | none =>
              exfalso
              apply hnn
              rw [hR]
              exact lookup_applyFileEdits_none hfnodup hmem []
            | some om =>
              obtain ⟨o, m⟩ := om
              refine ⟨([n2], some (o, m)), splitEdits_file_mem hmem, by simp, ?_⟩
              exact Or.inl (pathPre_single n2 r)

/-- Claim C6 (amended: restricted to requested path lists in which no path is
empty and no path is a proper prefix of another, as produced by the callers
diffing commit trees; and the recorded entry carries the libgit2-normalized
mode read through `FileMode::from(tree_entry.filemode())`, not the raw stored
mode): `dehydrate_tree` returns the entries of a tree in which every
requested path resolves to the entry found in the source tree with its mode
normalized — only the requested paths that resolve in `T` are present,
hosted by the ancestor directory structure built for them — and a requested
path absent from `T` is recorded as a `None` edit in the hydrated batch and
omitted from the result rather than causing an error.  Without the
path restriction the property fails: overlapping requests can drop a
resolving requested path. -/
theorem dehydrate_tree_requested (T : Entries) (paths : List Rpath)
    (hne : ∀ p ∈ paths, p ≠ ([] : Rpath))
    (hno : ∀ p ∈ paths, ∀ q ∈ paths, pathPre p q = true → p = q) :
    (∀ p ∈ paths, lookupPath (dehydrate_tree T paths).2 p =
      (lookupPath T p).map (fun om => (om.1, normalizeMode om.2))) ∧
    (∀ p ∈ paths, lookupPath T p = none →
      (p, (none : EditVal)) ∈ paths.map
        (fun q => (q, (lookupPath T q).map (fun om => (om.1, normalizeMode om.2))))) ∧
    (∀ q, lookupPath (dehydrate_tree T paths).2 q ≠ none →
      ∃ p ∈ paths, lookupPath T p ≠ none ∧
        (pathPre p q = true ∨ pathPre q p = true)) := by
  have hne2 : ∀ pv ∈ paths.map
      (fun p => (p, (lookupPath T p).map (fun om => (om.1, normalizeMode om.2)))),
      pv.1 ≠ ([] : Rpath) := by
    intro pv hm
    obtain ⟨p0, hp0, hq⟩ := List.mem_map.mp hm
    rw [← hq]
    exact hne p0 hp0
  have hc2 : editsConsistent (paths.map
      (fun p => (p, (lookupPath T p).map (fun om => (om.1, normalizeMode om.2))))) := by
    intro p v1 v2 h1 h2
    obtain ⟨p1, hp1, hq1⟩ := List.mem_map.mp h1
    obtain ⟨p2, hp2, hq2⟩ := List.mem_map.mp h2
    injection hq1 with ha1 hb1
    injection hq2 with ha2 hb2
    rw [← hb1, ← hb2, ha1, ha2]
  have hno2 : ∀ pv ∈ paths.map
      (fun p => (p, (lookupPath T p).map (fun om => (om.1, normalizeMode om.2)))),
      ∀ qw ∈ paths.map
        (fun p => (p, (lookupPath T p).map (fun om => (om.1, normalizeMode om.2)))),
      pathPre pv.1 qw.1 = true → pv.1 = qw.1 := by
    intro pv h1 qw h2 hp
    obtain ⟨p1, hp1, hq1⟩ := List.mem_map.mp h1
    obtain ⟨p2, hp2, hq2⟩ := List.mem_map.mp h2
    rw [← hq1, ← hq2]
    rw [← hq1, ← hq2] at hp
    exact hno p1 hp1 p2 hp2 hp
  obtain ⟨ha, hb⟩ :=
    hydrate_none_char
      (editsWeight (paths.map
        (fun p => (p, (lookupPath T p).map (fun om => (om.1, normalizeMode om.2))))))
      (paths.map
        (fun p => (p, (lookupPath T p).map (fun om => (om.1, normalizeMode om.2)))))
      le_rfl hne2 hc2 hno2
  refine ⟨?_, ?_, ?_⟩
  · intro p hp
    exact ha (p, (lookupPath T p).map (fun om => (om.1, normalizeMode om.2)))
      (List.mem_map_of_mem _ hp)
  · intro p hp h0
    have hm : (p, (lookupPath T p).map (fun om => (om.1, normalizeMode om.2))) ∈
        paths.map (fun q => (q, (lookupPath T q).map (fun om => (om.1, normalizeMode om.2)))) :=
      List.mem_map_of_mem _ hp
    rw [h0] at hm
    exact hm
  · intro q hq
    obtain ⟨pv, hm, hvne, hor⟩ := hb q hq
    obtain ⟨p0, w0⟩ := pv
    obtain ⟨p1, hp1, hq1⟩ := List.mem_map.mp hm
    injection hq1 with ha1 hb1
    refine ⟨p1, hp1, ?_, ?_⟩
    · intro h0
      apply hvne
      rw [← hb1, h0]
      rfl
    · rw [ha1]
      exact hor

/-- With overlapping requested paths, `dehydrate_tree` drops a requested path
that resolves in the source tree: requesting both `a` and `a/b` against a
tree holding only blob `a` produces an empty tree (the dir-group pass for `a`
discards the blob entry the file-edit pass inserted). -/
theorem dehydrate_tree_overlap_counterexample :
    lookupPath [("a", Obj.blob 0, 33188)] ["a"] = some (Obj.blob 0, 33188) ∧
    (dehydrate_tree [("a", Obj.blob 0, 33188)] [["a"], ["a", "b"]]).2 = [] := by
  constructor
  · rw [lookupPath_single]
    simp +decide [lookupName_cons]
  · simp +decide [dehydrate_tree, normalizeMode, hydrate_tree_eq, splitEdits, upsert,
      upsertGroup, applyFileEdits_cons, applyFileEdits, builderInsert, processDirs_cons,
      processDirs_nil, lookupName_cons, lookupName_nil, dirBase, treeMode,
      remove_entry_if_exists, lookupPath, lookupName, entryKindIsTree, List.filter]

theorem dehydrate_tree_requested_witness :
    lookupPath (dehydrate_tree [("a", Obj.blob 0, 33188)] [["a"], ["b"]]).2 ["a"] =
      (lookupPath [("a", Obj.blob 0, 33188)] ["a"]).map
        (fun om => (om.1, normalizeMode om.2)) :=
  (dehydrate_tree_requested [("a", Obj.blob 0, 33188)] [["a"], ["b"]]
      (by decide) (by decide)).1 ["a"] (by decide)

/-! ### Diff claims -/

/-- Against an absent counterpart, an entry is recorded exactly when it is a
non-tree entry. -/
theorem changedAt_vs_absent (x : Option (Obj × Nat)) :
    changedAt (classifyEntry x) ClassifiedEntry.absent = true ↔
      ∃ o2 m2, x = some (o2, m2) ∧ entryKindIsTree m2 = false := by
  cases hcq : classifyEntry x with
  | absent =>
    have hx := classify_absent hcq
    rw [hx]
    simp [changedAt]
  | notATree o2 m2 =>
    obtain ⟨he, hk2⟩ := classify_notATree hcq
    rw [he]
    constructor
    · intro hL
      exact ⟨o2, m2, rfl, hk2⟩
    · intro hR
      rfl
  | tree o2 m2 =>
    obtain ⟨he, hk2⟩ := classify_tree hcq
    rw [he]
    constructor
    · intro hL
      simp [changedAt] at hL
    · rintro ⟨o3, m3, he2, hk3⟩
      injection he2 with he3
      injection he3 with h4 h5
      rw [h5] at hk2
      rw [hk2] at hk3
      cases hk3

/-- A path that exists on exactly one side need not be recorded: diffing a
tree holding directory `d` (with file `d/f`) against an absent tree records
only `d/f`, while `d` itself resolves on the left side only and is not in
the output. -/
theorem get_changed_paths_counterexample :
    get_changed_paths_between_trees
        (some [("d", Obj.tree [("f", Obj.blob 0, 33188)], treeMode)]) none =
      Except.ok [["d", "f"]] ∧
    lookupPathOpt (some [("d", Obj.tree [("f", Obj.blob 0, 33188)], treeMode)]) ["d"] =
      some (Obj.tree [("f", Obj.blob 0, 33188)], treeMode) ∧
    lookupPathOpt none ["d"] = none ∧
    ["d"] ∉ [[("d" : String), "f"]] := by
  refine ⟨?_, ?_, rfl, by decide⟩
  · simp +decide [get_changed_paths_between_trees, diffTrees, diffNames_cons,
      diffNames_nil, diffOne, unionNames, namesOf, optLookup, lookupName,
      classifyEntry, entryKindIsTree, getTreeEntries, treeMode]
  · rw [lookupPathOpt]
    rw [lookupPath_single]
    simp +decide [lookupName_cons]

/-- Claim C1 (amended: a path is recorded exactly when `changedAt` holds of
the entries resolved at it on the two sides — `(OID, mode)` difference or
one-sided existence for paths holding a non-tree entry on at least one side,
raw mode difference for paths tree-typed on both sides; a path whose entry is
tree-typed on one side and absent on the other is not itself recorded even
though it exists on exactly one side).  The original biconditional is refuted
by the directory-versus-absent counterexample. -/
theorem get_changed_paths_iff (lhs rhs : Option Entries)
    (hw1 : wfOpt lhs = true) (hw2 : wfOpt rhs = true) :
    ∃ ps, get_changed_paths_between_trees lhs rhs = Except.ok ps ∧
      ∀ p, p ∈ ps ↔
        changedAt (classifyEntry (lookupPathOpt lhs p))
          (classifyEntry (lookupPathOpt rhs p)) = true :=
  diffTrees_char lhs rhs hw1 hw2

theorem get_changed_paths_iff_witness :
    ∃ ps, get_changed_paths_between_trees (some [("a", Obj.blob 0, 33188)]) none =
        Except.ok ps ∧
      ∀ p, p ∈ ps ↔
        changedAt (classifyEntry (lookupPathOpt (some [("a", Obj.blob 0, 33188)]) p))
          (classifyEntry (lookupPathOpt none p)) = true :=
  get_changed_paths_iff (some [("a", Obj.blob 0, 33188)]) none (by decide) (by decide)

/-- Claim C4: the four tree-versus-tree cases, stated on the recorded path
set.  With an entry tree-typed on both sides: equal subtrees and equal modes
record nothing at or below the name; equal subtrees with differing modes
record exactly the name itself; differing subtrees with equal modes record
only descendant paths (those changed between the two subtrees); differing
subtrees and differing modes record the name and the changed descendant
paths. -/
theorem diff_tree_tree_cases (lhs rhs : Option Entries) (n : String)
    (S1 S2 : Entries) (m1 m2 : Nat)
    (hw1 : wfOpt lhs = true) (hw2 : wfOpt rhs = true)
    (hl : optLookup lhs n = some (Obj.tree S1, m1)) (hk1 : entryKindIsTree m1 = true)
    (hr : optLookup rhs n = some (Obj.tree S2, m2)) (hk2 : entryKindIsTree m2 = true) :
    ∃ ps, get_changed_paths_between_trees lhs rhs = Except.ok ps ∧
      (S1 = S2 ∧ m1 = m2 → ∀ q, (n :: q) ∉ ps) ∧
      (S1 = S2 ∧ m1 ≠ m2 → ∀ q, ((n :: q) ∈ ps ↔ q = [])) ∧
      (S1 ≠ S2 ∧ m1 = m2 → [n] ∉ ps ∧ ∀ q, q ≠ [] → ((n :: q) ∈ ps ↔
        changedAt (classifyEntry (lookupPath S1 q))
          (classifyEntry (lookupPath S2 q)) = true)) ∧
      (S1 ≠ S2 ∧ m1 ≠ m2 → [n] ∈ ps ∧ ∀ q, q ≠ [] → ((n :: q) ∈ ps ↔
        changedAt (classifyEntry (lookupPath S1 q))
          (classifyEntry (lookupPath S2 q)) = true)) := by
  obtain ⟨ps, hps, hchar⟩ := diffTrees_char lhs rhs hw1 hw2
  have hcl : classifyEntry (optLookup lhs n) = ClassifiedEntry.tree (Obj.tree S1) m1 := by
    rw [hl]
    simp [classifyEntry, hk1]
  have hcr : classifyEntry (optLookup rhs n) = ClassifiedEntry.tree (Obj.tree S2) m2 := by
    rw [hr]
    simp [classifyEntry, hk2]
  have hnil : ([n] ∈ ps) ↔ ¬(m1 = m2) := by
    rw [hchar [n], side_tree_nil hcl, side_tree_nil hcr]
    simp [changedAt]
  have hdeep : ∀ q, q ≠ [] → (((n :: q) ∈ ps) ↔
      changedAt (classifyEntry (lookupPath S1 q))
        (classifyEntry (lookupPath S2 q)) = true) := by
    intro q hq
    rw [hchar (n :: q), side_tree_deep hq hcl rfl, side_tree_deep hq hcr rfl]
    exact Iff.rfl
  refine ⟨ps, hps, ?_, ?_, ?_, ?_⟩
  · rintro ⟨hS, hm⟩ q
    cases q with
    | nil =>
      intro hmem
      exact (hnil.mp hmem) hm
    | cons x q2 =>
      intro hmem
      have h1 := (hdeep (x :: q2) (List.cons_ne_nil x q2)).mp hmem
      rw [hS, changedAt_self] at h1
      cases h1
  · rintro ⟨hS, hm⟩ q
    cases q with
    | nil =>
      constructor
      · intro _
        rfl
      · intro _
        exact hnil.mpr hm
    | cons x q2 =>
      constructor
      · intro hmem
        exfalso
        have h1 := (hdeep (x :: q2) (List.cons_ne_nil x q2)).mp hmem
        rw [hS, changedAt_self] at h1
        cases h1
      · intro h1
        exact absurd h1 (List.cons_ne_nil x q2)
  · rintro ⟨hS, hm⟩
    exact ⟨fun hmem => (hnil.mp hmem) hm, hdeep⟩
  · rintro ⟨hS, hm⟩
    exact ⟨hnil.mpr hm, hdeep⟩

theorem diff_tree_tree_cases_witness :
    ∃ ps, get_changed_paths_between_trees
        (some [("d", Obj.tree [("f", Obj.blob 0, 33188)], treeMode)])
        (some [("d", Obj.tree [], treeMode)]) = Except.ok ps ∧
      ([("f", Obj.blob 0, 33188)] = ([] : Entries) ∧ treeMode = treeMode →
        ∀ q, ("d" :: q) ∉ ps) ∧
      ([("f", Obj.blob 0, 33188)] = ([] : Entries) ∧ treeMode ≠ treeMode →
        ∀ q, (("d" :: q) ∈ ps ↔ q = [])) ∧
      ([("f", Obj.blob 0, 33188)] ≠ ([] : Entries) ∧ treeMode = treeMode →
        ["d"] ∉ ps ∧ ∀ q, q ≠ [] → (("d" :: q) ∈ ps ↔
          changedAt (classifyEntry (lookupPath [("f", Obj.blob 0, 33188)] q))
            (classifyEntry (lookupPath ([] : Entries) q)) = true)) ∧
      ([("f", Obj.blob 0, 33188)] ≠ ([] : Entries) ∧ treeMode ≠ treeMode →
        ["d"] ∈ ps ∧ ∀ q, q ≠ [] → (("d" :: q) ∈ ps ↔
          changedAt (classifyEntry (lookupPath [("f", Obj.blob 0, 33188)] q))
            (classifyEntry (lookupPath ([] : Entries) q)) = true)) :=
  diff_tree_tree_cases (some [("d", Obj.tree [("f", Obj.blob 0, 33188)], treeMode)])
    (some [("d", Obj.tree [], treeMode)]) "d" [("f", Obj.blob 0, 33188)] []
    treeMode treeMode (by decide) (by decide) (by decide) (by decide)
    (by decide) (by decide)

/-- Not every descendant path of a one-sided tree is recorded: diffing a tree
holding `d/sub/f` against an absent tree produces a path set that does not
contain the descendant directory path `d/sub`, although `d` is tree-typed on
the present side only and `sub` resolves inside it. -/
theorem diff_tree_absent_counterexample :
    ∃ ps,
      get_changed_paths_between_trees
          (some [("d", Obj.tree [("sub", Obj.tree [("f", Obj.blob 0, 33188)], treeMode)],
            treeMode)]) none = Except.ok ps ∧
      optLookup
          (some [("d", Obj.tree [("sub", Obj.tree [("f", Obj.blob 0, 33188)], treeMode)],
            treeMode)]) "d" =
        some (Obj.tree [("sub", Obj.tree [("f", Obj.blob 0, 33188)], treeMode)], treeMode) ∧
      optLookup none "d" = none ∧
      lookupPath [("sub", Obj.tree [("f", Obj.blob 0, 33188)], treeMode)] ["sub"] =
        some (Obj.tree [("f", Obj.blob 0, 33188)], treeMode) ∧
      ["d", "sub"] ∉ ps := by
  obtain ⟨ps, hps, hchar⟩ := diffTrees_char
    (some [("d", Obj.tree [("sub", Obj.tree [("f", Obj.blob 0, 33188)], treeMode)],
      treeMode)]) none (by decide) (by decide)
  refine ⟨ps, hps, by decide, rfl, by decide, ?_⟩
  intro hmem
  have h1 := (hchar ["d", "sub"]).mp hmem
  have h2 : lookupPathOpt
      (some [("d", Obj.tree [("sub", Obj.tree [("f", Obj.blob 0, 33188)], treeMode)],
        treeMode)]) ["d", "sub"] =
      some (Obj.tree [("f", Obj.blob 0, 33188)], treeMode) := by decide
  rw [h2] at h1
  simp +decide [classifyEntry, changedAt, lookupPathOpt, treeMode] at h1

/-- Claim C5 (amended: when an entry name is tree-typed on one side and
absent on the other, the diff recurses into the present tree against an
absent counterpart and records exactly those descendant paths that hold a
non-tree entry in it — not every descendant path — and does not record the
directory path itself). -/
theorem diff_tree_vs_absent (lhs rhs : Option Entries) (n : String)
    (S : Entries) (m : Nat)
    (hw1 : wfOpt lhs = true) (hw2 : wfOpt rhs = true)
    (hk : entryKindIsTree m = true)
    (hone : (optLookup lhs n = some (Obj.tree S, m) ∧ optLookup rhs n = none) ∨
            (optLookup lhs n = none ∧ optLookup rhs n = some (Obj.tree S, m))) :
    ∃ ps, get_changed_paths_between_trees lhs rhs = Except.ok ps ∧
      [n] ∉ ps ∧
      ∀ q, q ≠ [] → (((n :: q) ∈ ps) ↔
        ∃ o2 m2, lookupPath S q = some (o2, m2) ∧ entryKindIsTree m2 = false) := by
  obtain ⟨ps, hps, hchar⟩ := diffTrees_char lhs rhs hw1 hw2
  rcases hone with ⟨hl, hr⟩ | ⟨hl, hr⟩
  · have hcl : classifyEntry (optLookup lhs n) = ClassifiedEntry.tree (Obj.tree S) m := by
      rw [hl]
      simp [classifyEntry, hk]
    have hcr : classifyEntry (optLookup rhs n) = ClassifiedEntry.absent := by
      rw [hr]
      rfl
    refine ⟨ps, hps, ?_, ?_⟩
    · intro hmem
      have h1 := (hchar [n]).mp hmem
      rw [side_tree_nil hcl, side_absent hcr []] at h1
      simp [changedAt] at h1
    · intro q hq
      rw [hchar (n :: q), side_tree_deep hq hcl rfl, side_absent hcr q]
      exact changedAt_vs_absent (lookupPath S q)
  · have hcl : classifyEntry (optLookup lhs n) = ClassifiedEntry.absent := by
      rw [hl]
      rfl
    have hcr : classifyEntry (optLookup rhs n) = ClassifiedEntry.tree (Obj.tree S) m := by
      rw [hr]
      simp [classifyEntry, hk]
    refine ⟨ps, hps, ?_, ?_⟩
    · intro hmem
      have h1 := (hchar [n]).mp hmem
      rw [side_tree_nil hcr, side_absent hcl []] at h1
      simp [changedAt] at h1
    · intro q hq
      rw [hchar (n :: q), side_tree_deep hq hcr rfl, side_absent hcl q]
      rw [changedAt_comm]
      exact changedAt_vs_absent (lookupPath S q)

theorem diff_tree_vs_absent_witness :
    ∃ ps, get_changed_paths_between_trees
        (some [("d", Obj.tree [("f", Obj.blob 0, 33188)], treeMode)]) none =
        Except.ok ps ∧
      ["d"] ∉ ps ∧
      ∀ q, q ≠ [] → (((("d" : String) :: q) ∈ ps) ↔
        ∃ o2 m2, lookupPath [("f", Obj.blob 0, 33188)] q = some (o2, m2) ∧
          entryKindIsTree m2 = false) :=
  diff_tree_vs_absent (some [("d", Obj.tree [("f", Obj.blob 0, 33188)], treeMode)])
    none "d" [("f", Obj.blob 0, 33188)] treeMode (by decide) (by decide) (by decide)
    (by decide)

/-- Claim C10: the diff of two well-formed optional trees is symmetric as a
set of paths — both directions succeed and produce the same members. -/
theorem get_changed_paths_symmetric (lhs rhs : Option Entries)
    (hw1 : wfOpt lhs = true) (hw2 : wfOpt rhs = true) :
    ∃ ps qs, get_changed_paths_between_trees lhs rhs = Except.ok ps ∧
      get_changed_paths_between_trees rhs lhs = Except.ok qs ∧
      ∀ p, p ∈ ps ↔ p ∈ qs := by
  obtain ⟨ps, hps, hchar1⟩ := diffTrees_char lhs rhs hw1 hw2
  obtain ⟨qs, hqs, hchar2⟩ := diffTrees_char rhs lhs hw2 hw1
  refine ⟨ps, qs, hps, hqs, ?_⟩
  intro p
  rw [hchar1 p, hchar2 p, changedAt_comm]

theorem get_changed_paths_symmetric_witness :
    ∃ ps qs, get_changed_paths_between_trees (some [("a", Obj.blob 0, 33188)]) none =
        Except.ok ps ∧
      get_changed_paths_between_trees none (some [("a", Obj.blob 0, 33188)]) =
        Except.ok qs ∧
      ∀ p, p ∈ ps ↔ p ∈ qs :=
  get_changed_paths_symmetric (some [("a", Obj.blob 0, 33188)]) none
    (by decide) (by decide)

/-! ### Witnesses for the hydration claims -/

theorem hydrate_delete_missing_noop_witness :
    (hydrate_tree (some [("a", Obj.blob 1, 33188)])
        ((["b"], (none : EditVal)) :: [(["a"], some (Obj.blob 2, 33188))])).2 =
      (hydrate_tree (some [("a", Obj.blob 1, 33188)])
        [(["a"], some (Obj.blob 2, 33188))]).2 :=
  hydrate_delete_missing_noop (some [("a", Obj.blob 1, 33188)])
    [(["a"], some (Obj.blob 2, 33188))] "b" (by decide) (by decide)

theorem hydrate_dir_group_witness :
    lookupName (hydrate_tree none [(["d", "x"], some (Obj.blob 0, 33188))]).2 "d" =
      (if ((hydrate_tree
            (dirBase (applyFileEdits ((none : Option Entries).getD [])
              (splitEdits [(["d", "x"], some (Obj.blob 0, 33188))]).2.1) "d")
            [(["x"], some (Obj.blob 0, 33188))]).2).isEmpty
       then none
       else some (Obj.tree (hydrate_tree
            (dirBase (applyFileEdits ((none : Option Entries).getD [])
              (splitEdits [(["d", "x"], some (Obj.blob 0, 33188))]).2.1) "d")
            [(["x"], some (Obj.blob 0, 33188))]).2, treeMode)) :=
  hydrate_dir_group none [(["d", "x"], some (Obj.blob 0, 33188))] "d"
    [(["x"], some (Obj.blob 0, 33188))] (by decide)

/-- Hydration can produce a tree with an entry pointing at an empty subtree:
a single-segment edit whose value is an empty tree OID is inserted into the
builder verbatim, with no emptiness check (only dir-group results are
checked). -/
theorem hydrate_empty_subtree_counterexample :
    lookupName (hydrate_tree none [(["d"], some (Obj.tree [], treeMode))]).2 "d" =
      some (Obj.tree [], treeMode) := by
  simp +decide [hydrate_tree_eq, splitEdits, upsert, applyFileEdits_cons, applyFileEdits,
    builderInsert, processDirs_nil, lookupName_cons, treeMode]
